import Mathlib

/-!
Verification development for the fb-group-scraper repository.

Strings are modelled as `List Char` (`Str`).  All definitions are shallow
embeddings of the Python source:

* `src/filterPosts.py`  — text normalisation (`oneline`), URL normalisation
  (`normalize_fp`), target matching, admin detection, classification,
  CSV column detection, the per-URL orchestration of `main`.
* `src/run_filters.py`  — `normalize_rf`, the done-ledger, the per-outcome
  actions on the pending work-list.
* `src/scrapePosts.py`  — `canonicalize_url`, the collection loop of
  `collect_after_warmup`.

File-durability behaviour is modelled as small traces of file operations,
and the orchestration of one `filterPosts.main` invocation as a list of
events (fetches and ledger appends) so that interrupted runs are prefixes.
-/

set_option maxRecDepth 10000

/-- Strings modelled as lists of characters. -/
abbrev Str := List Char

/-- Whitespace as recognised by Python's `str.strip`, `str.isspace` and the
regex class `\s` on `str` patterns (ASCII whitespace, the C1 separators and
the common Unicode spaces). -/
def isWs (c : Char) : Bool :=
  c = ' ' || c = '\t' || c = '\n' || c = '\r' || c = '\x0b' || c = '\x0c' ||
  c = '\x1c' || c = '\x1d' || c = '\x1e' || c = '\x1f' || c = '\x85' ||
  c = ' ' || c = ' ' || c = ' ' || c = ' ' || c = ' ' ||
  c = ' ' || c = ' ' || c = ' ' || c = ' ' || c = ' ' ||
  c = ' ' || c = ' ' || c = ' ' || c = ' ' || c = ' ' ||
  c = ' ' || c = ' ' || c = '　'

/-- Python `s.strip()`: drop leading and trailing whitespace. -/
def stripStr (s : Str) : Str :=
  ((s.dropWhile isWs).reverse.dropWhile isWs).reverse

/-- Try to read `pat` as a prefix of `s`; on success return the rest of `s`. -/
def consume : Str → Str → Option Str
  | [], s => some s
  | _ :: _, [] => none
  | p :: ps, c :: t => if c = p then consume ps t else none

/-- Fuelled worker for `replaceAll`; fuel `s.length` suffices for a
non-empty pattern. -/
def replaceAllGo (pat rep : Str) : Nat → Str → Str
  | _, [] => []
  | 0, s => s
  | f + 1, c :: t =>
    match consume pat (c :: t) with
    | some rest => rep ++ replaceAllGo pat rep f rest
    | none => c :: replaceAllGo pat rep f t

/-- Python `s.replace(pat, rep)`: replace every (left-to-right,
non-overlapping) occurrence of `pat` in `s` by `rep`.  Only used with
non-empty patterns. -/
def replaceAll (pat rep s : Str) : Str :=
  replaceAllGo pat rep s.length s

/-- Python `s.rstrip("/")`: drop all trailing slashes. -/
def rstripSlash (s : Str) : Str :=
  (s.reverse.dropWhile (fun c => c = '/')).reverse

/-- Python `s.lower()` (ASCII case folding, which is all the sources use). -/
def toLowerStr (s : Str) : Str := s.map Char.toLower

/-- Python `p in s`: contiguous-substring test. -/
def containsSub (p s : Str) : Bool :=
  s.tails.any (fun t => (consume p t).isSome)

/-- `re.sub(r"[?#].*$", "", s)` from `filterPosts.normalize_url`: at the
first `?`/`#` whose tail crosses no interior newline the match runs to the
end of the string (or to a single final newline, which `$` keeps); without
such a position scanning continues to the right. -/
def subQFGo : Str → Str
  | [] => []
  | c :: t =>
    if c = '?' ∨ c = '#' then
      if (c :: t).contains '\n' = false then []
      else if (c :: t).getLast? = some '\n' ∧ ((c :: t).dropLast.contains '\n') = false then ['\n']
      else c :: subQFGo t
    else c :: subQFGo t

def subQF (s : Str) : Str := subQFGo s

/-- `"://m.facebook."` — source pattern of the first host rewrite. -/
def mDotPat : Str := [':', '/', '/', 'm', '.', 'f', 'a', 'c', 'e', 'b', 'o', 'o', 'k', '.']

/-- `"://facebook."` — source pattern of the second host rewrite. -/
def bareFbPat : Str := [':', '/', '/', 'f', 'a', 'c', 'e', 'b', 'o', 'o', 'k', '.']

/-- `"://www.facebook."` — replacement of both host rewrites. -/
def wwwFbRep : Str := [':', '/', '/', 'w', 'w', 'w', '.', 'f', 'a', 'c', 'e', 'b', 'o', 'o', 'k', '.']

/-- The two chained host-alias replacements shared by `normalize_url`
(both copies) and `canonicalize_url`. -/
def hostRewrite (s : Str) : Str :=
  replaceAll bareFbPat wwwFbRep (replaceAll mDotPat wwwFbRep s)

/-- `filterPosts.normalize_url` (src/filterPosts.py lines 74–81). -/
def normalize_fp (u : Str) : Str :=
  if u.isEmpty then [] else
  rstripSlash (subQF (hostRewrite (stripStr u)))

/-- `run_filters.normalize_url` (src/run_filters.py lines 22–30): same as
`normalize_fp` except query/fragment are removed with `split` instead of a
regex (split at the first `?`, then at the first `#` of the result). -/
def normalize_rf (u : Str) : Str :=
  if u.isEmpty then [] else
  rstripSlash (((hostRewrite (stripStr u)).takeWhile (fun c => c ≠ '?')).takeWhile (fun c => c ≠ '#'))

/-- `"https://www.facebook.com"`, prepended by `canonicalize_url` to
root-relative URLs. -/
def fbWwwHost : Str :=
  ['h','t','t','p','s',':','/','/','w','w','w','.','f','a','c','e','b','o','o','k','.','c','o','m']

def httpPrefix : Str := ['h','t','t','p',':','/','/']

def httpsPrefix : Str := ['h','t','t','p','s',':','/','/']

/-- `re.sub(r"^http://", "https://", u, flags=re.I)`: anchored,
case-insensitive scheme upgrade. -/
def httpToHttps (s : Str) : Str :=
  if toLowerStr (s.take 7) = httpPrefix then httpsPrefix ++ s.drop 7 else s

/-- `scrapePosts._strip_query_frag`: `split("#",1)[0]` then `split("?",1)[0]`. -/
def stripQueryFrag (s : Str) : Str :=
  (s.takeWhile (fun c => c ≠ '#')).takeWhile (fun c => c ≠ '?')

/-- `scrapePosts.canonicalize_url` (src/scrapePosts.py lines 63–73). -/
def canonicalize_url (u : Str) : Str :=
  if u.isEmpty then [] else
  let u1 := stripStr u
  let u2 := if u1.head? = some '/' then fbWwwHost ++ u1 else u1
  rstripSlash (stripQueryFrag (hostRewrite (httpToHttps u2)))

/-- The stylised sans-serif-italic letters of `_SANSTRANS`, paired with
their ASCII counterparts (src/filterPosts.py lines 51–58). -/
def fancyPairs : List (Char × Char) :=
  ("𝘈𝘉𝘊𝘋𝘌𝘍𝘎𝘏𝘐𝘑𝘒𝘓𝘔𝘕𝘖𝘗𝘘𝘙𝘚𝘛𝘜𝘝𝘞𝘟𝘠𝘡".toList.zip "ABCDEFGHIJKLMNOPQRSTUVWXYZ".toList) ++
  ("𝘢𝘣𝘤𝘥𝘦𝘧𝘨𝘩𝘪𝘫𝘬𝘭𝘮𝘯𝘰𝘱𝘲𝘳𝘴𝘵𝘶𝘷𝘸𝘹𝘺𝘻".toList.zip "abcdefghijklmnopqrstuvwxyz".toList)

/-- One step of `str.translate(_SANSTRANS)`. -/
def fancyMap (c : Char) : Char :=
  match fancyPairs.lookup c with
  | some a => a
  | none => c

/-- `normalize_fancy_letters` (src/filterPosts.py lines 60–63). -/
def normalize_fancy_letters (s : Str) : Str :=
  if s.isEmpty then [] else s.map fancyMap

/-- The class `[\r\n\t]` of `oneline`'s first substitution. -/
def isCRT (c : Char) : Bool := c = '\r' || c = '\n' || c = '\t'

/-- `re.sub(r"[\r\n\t]+", " ", s)`: every maximal run of CR/LF/TAB becomes
one space. -/
def sub1 : Str → Str
  | [] => []
  | c :: rest =>
    if isCRT c then
      match rest with
      | [] => [' ']
      | c2 :: _ => if isCRT c2 then sub1 rest else ' ' :: sub1 rest
    else c :: sub1 rest

/-- Worker for `re.sub(r"\s{2,}", " ", s)`; the flag records being inside a
run of two or more whitespace characters that will be emitted as one space
when it ends. -/
def sub2go : Bool → Str → Str
  | true, [] => [' ']
  | false, [] => []
  | true, c :: rest => if isWs c then sub2go true rest else ' ' :: c :: sub2go false rest
  | false, c :: rest =>
    if isWs c then
      match rest with
      | [] => [c]
      | c2 :: _ => if isWs c2 then sub2go true rest else c :: sub2go false rest
    else c :: sub2go false rest

/-- `re.sub(r"\s{2,}", " ", s)`: every maximal whitespace run of length at
least two becomes one space. -/
def sub2 (s : Str) : Str := sub2go false s

/-- `oneline` (src/filterPosts.py lines 65–72). -/
def oneline (s : Str) : Str :=
  if s.isEmpty then [] else stripStr (sub2 (sub1 (normalize_fancy_letters s)))

/-- Regex fragments used by the target patterns: a case-insensitive literal
character, `\s+`, `\s*`, and an optional literal character. -/
inductive Tok : Type
  | litCI (c : Char)
  | wsPlus
  | wsStar
  | optChar (c : Char)
deriving DecidableEq

/-- Fuelled matcher: does the token list match some prefix of the string?
Each step consumes fuel; `toks.length + s.length + 1` fuel is always
enough, since every step shortens `toks` or consumes a character. -/
def matchToksF : Nat → List Tok → Str → Bool
  | 0, _, _ => false
  | _ + 1, [], _ => true
  | f + 1, Tok.litCI c :: ts, s =>
    match s with
    | [] => false
    | x :: r => Char.toLower x = c && matchToksF f ts r
  | f + 1, Tok.wsPlus :: ts, s =>
    match s with
    | [] => false
    | x :: r => isWs x && matchToksF f (Tok.wsStar :: ts) r
  | f + 1, Tok.wsStar :: ts, s =>
    matchToksF f ts s ||
      match s with
      | [] => false
      | x :: r => isWs x && matchToksF f (Tok.wsStar :: ts) r
  | f + 1, Tok.optChar c :: ts, s =>
    matchToksF f ts s ||
      match s with
      | [] => false
      | x :: r => Char.toLower x = c && matchToksF f ts r

/-- `pat.search(s)`: the token list matches at some position of `s`. -/
def searchTok (p : List Tok) (s : Str) : Bool :=
  s.tails.any (fun t => matchToksF (p.length + t.length + 1) p t)

/-- A sequence of case-insensitive literal characters. -/
def litToks (s : Str) : List Tok := s.map Tok.litCI

def patPhilippineCobra : List Tok :=
  litToks ("philippine".toList) ++ [Tok.wsPlus] ++ litToks ("cobra".toList)

def patPhilippinesCobra : List Tok :=
  litToks ("philippines".toList) ++ [Tok.wsPlus] ++ litToks ("cobra".toList)

def patPhillipineCobra : List Tok :=
  litToks ("phillipine".toList) ++ [Tok.wsPlus] ++ litToks ("cobra".toList)

def patPhCobra : List Tok :=
  litToks ("ph".toList) ++ [Tok.wsPlus] ++ litToks ("cobra".toList)

def patSamarCobra : List Tok :=
  litToks ("samar".toList) ++ [Tok.wsPlus] ++ litToks ("cobra".toList)

def patKingCobra : List Tok :=
  litToks ("king".toList) ++ [Tok.wsPlus] ++ litToks ("cobra".toList)

def patPhilSpittingCobra : List Tok :=
  litToks ("philippine".toList) ++ [Tok.wsPlus] ++ litToks ("spitting".toList) ++
    [Tok.wsPlus] ++ litToks ("cobra".toList)

def patNajaPhilippinensis : List Tok :=
  litToks ("naja".toList) ++ [Tok.wsPlus] ++ litToks ("philippinensis".toList)

def patNajaSamarensis : List Tok :=
  litToks ("naja".toList) ++ [Tok.wsPlus] ++ litToks ("samarensis".toList)

def patOphiophagusHannah : List Tok :=
  litToks ("ophiophagus".toList) ++ [Tok.wsPlus] ++ litToks ("hannah".toList)

/-- `r"\(?\s*naja\s*sp\.?\s*\)?"`. -/
def patNajaSp : List Tok :=
  [Tok.optChar '(', Tok.wsStar] ++ litToks ("naja".toList) ++ [Tok.wsStar] ++
    litToks ("sp".toList) ++ [Tok.optChar '.', Tok.wsStar, Tok.optChar ')']

/-- `r"\(?\s*naja\s*spp\.?\s*\)?"`. -/
def patNajaSpp : List Tok :=
  [Tok.optChar '(', Tok.wsStar] ++ litToks ("naja".toList) ++ [Tok.wsStar] ++
    litToks ("spp".toList) ++ [Tok.optChar '.', Tok.wsStar, Tok.optChar ')']

/-- `TARGET_PATTERNS` in source order (src/filterPosts.py lines 29–48). -/
def TARGET_PATTERNS : List (List Tok) :=
  [patPhilippineCobra, patPhilippinesCobra, patPhillipineCobra, patPhCobra,
   patSamarCobra, patKingCobra, patPhilSpittingCobra,
   patNajaPhilippinensis, patNajaSamarensis, patOphiophagusHannah,
   patNajaSp, patNajaSpp]

/-- `text_matches_targets` (src/filterPosts.py lines 83–90). -/
def textMatchesTargets (text : Str) : Bool :=
  if text.isEmpty then false else
  TARGET_PATTERNS.any (fun p => searchTok p (oneline text))

example : oneline ("  a\r\n b\tc  ".toList) = ("a b c".toList) := by decide
example : normalize_fp ("https://m.facebook.com/posts/1/?x=2".toList) = ("https://www.facebook.com/posts/1".toList) := by decide
example : normalize_fp ("http://www.facebook.com/posts/1".toList) = ("http://www.facebook.com/posts/1".toList) := by decide
example : canonicalize_url ("http://facebook.com/posts/1/".toList) = ("https://www.facebook.com/posts/1".toList) := by decide
example : canonicalize_url ("/groups/g/posts/5?q=1".toList) = ("https://www.facebook.com/groups/g/posts/5".toList) := by decide
example : textMatchesTargets ("I saw a KING  cobra today".toList) = true := by decide
example : textMatchesTargets ("(Naja sp.) spotted".toList) = true := by decide
example : textMatchesTargets ("#admin noted, not relevant".toList) = false := by decide
example : textMatchesTargets ("𝘕𝘢𝘫𝘢 𝘱𝘩𝘪𝘭𝘪𝘱𝘱𝘪𝘯𝘦𝘯𝘴𝘪𝘴 maybe".toList) = true := by decide

/-- A badge entry, which in the source may be a plain string or a dict with
`label`/`name` fields (src/filterPosts.py lines 117–125). -/
inductive Badge : Type
  | str (label : Str)
  | dict (label : Option Str) (name : Option Str)
deriving DecidableEq

/-- `b.get("label") or b.get("name") or ""` on a badge dict; a plain string
badge is its own label. -/
def badgeLabel : Badge → Str
  | Badge.str l => l
  | Badge.dict l n =>
    match l with
    | some x => if x.isEmpty then (match n with | some y => y | none => []) else x
    | none => match n with | some y => y | none => []

/-- A scraped comment.  Absent / `None` fields of the Python dict behave
exactly like their falsy defaults everywhere the source reads them, so they
are collapsed to those defaults (`""`, `false`, `[]`). -/
structure Comment where
  commenter : Str := []
  text : Str := []
  groupStaff : Bool := false
  isAdmin : Bool := false
  isModerator : Bool := false
  role : Str := []
  badges : List Badge := []
  ciIsAdmin : Bool := false
  ciIsModerator : Bool := false
  ciGroupStaff : Bool := false
deriving DecidableEq

/-- `has_admin_tag` (src/filterPosts.py lines 92–93). -/
def hasAdminTag (text : Str) : Bool :=
  !text.isEmpty && containsSub ("#admin".toList) (toLowerStr text)

/-- `commenter_in_staff_list` (src/filterPosts.py lines 104–106); the staff
roster is already lower-cased by `load_staff_names`. -/
def commenterInStaffList (c : Comment) (staff : List Str) : Bool :=
  let name := oneline c.commenter
  if name.isEmpty then false else staff.contains (toLowerStr name)

/-- The fixed role-string set of `is_group_staff_comment`. -/
def roleStrings : List Str :=
  [("admin".toList), ("moderator".toList), ("group admin".toList), ("group moderator".toList)]

/-- `is_group_staff_comment` (src/filterPosts.py lines 108–131). -/
def isGroupStaffComment (c : Comment) (staff : List Str) : Bool :=
  commenterInStaffList c staff ||
  c.groupStaff || c.isAdmin || c.isModerator ||
  roleStrings.contains (toLowerStr (stripStr c.role)) ||
  c.badges.any (fun b =>
    let l := toLowerStr (badgeLabel b)
    containsSub ("admin".toList) l || containsSub ("moderator".toList) l) ||
  c.ciIsAdmin || c.ciIsModerator || c.ciGroupStaff

/-- `is_admin_like` (src/filterPosts.py lines 133–134). -/
def isAdminLike (c : Comment) (staff : List Str) : Bool :=
  isGroupStaffComment c staff || hasAdminTag c.text

/-- The four non-skip outcomes of `filterPosts.main`, plus `Skipped`. -/
inductive FOutcome : Type
  | Skipped
  | Accepted
  | RejectedWithAdmin
  | SavedNoAdmin
  | RejectedNoAdmin
deriving DecidableEq

/-- The three outcome ledgers and the run-log, each modelled by its
identity (URL) column: `url_in_csv` reads only that column, and the ledger
headers written by this program make `_find_url_column` select it. -/
structure LedgerState where
  accepted : List Str := []
  nonadmin : List Str := []
  rejected : List Str := []
  runLog : List (Str × Nat × Str) := []
deriving DecidableEq

/-- `url_in_csv` (src/filterPosts.py lines 197–209) on one ledger's URL
column: a stored value matches when its normalisation is non-empty and
equals the (already normalised) probe. -/
def urlInLedger (rows : List Str) (urlNorm : Str) : Bool :=
  rows.any (fun v =>
    let w := normalize_fp v
    !w.isEmpty && (w == urlNorm))

/-- `already_processed` (src/filterPosts.py lines 211–217): membership in
any of the three outcome ledgers, after normalising the probe once more. -/
def alreadyProcessed (L : LedgerState) (urlRaw : Str) : Bool :=
  let n := normalize_fp urlRaw
  urlInLedger L.accepted n || urlInLedger L.nonadmin n || urlInLedger L.rejected n

/-- Result of the `postComments.py` collaborator as read by `main`. -/
structure PcData where
  url : Str := []
  comments : Option (List Comment) := none
  commentsFiltered : Option (List Comment) := none
  scrapedTotal : Option Nat := none

/-- Python falsy-chain step: an empty list counts as absent. -/
def someNonEmptyC (o : Option (List Comment)) : Option (List Comment) :=
  match o with
  | some l => if l.isEmpty then none else some l
  | none => none

/-- `pc_data.get("comments") or pc_data.get("comments_filtered") or []`. -/
def pickComments (pc : PcData) : List Comment :=
  match someNonEmptyC pc.comments with
  | some l => l
  | none =>
    match someNonEmptyC pc.commentsFiltered with
    | some l => l
    | none => []

/-- `int(pc_data.get("scraped_total") or len(comments) or 0)`. -/
def effTotal (pc : PcData) (comments : List Comment) : Nat :=
  match pc.scrapedTotal with
  | some n => if n = 0 then comments.length else n
  | none => comments.length

/-- Result of the `postDetails.py` collaborator as read by `main`. -/
structure PdData where
  url : Str := []
  poster : Str := []
  text : Str := []
  dateIso : Str := []

/-- `pd_data.get("url") or pc_data.get("url") or post_url_norm`. -/
def chooseUrlRaw (pd : PdData) (pc : PcData) (k : Str) : Str :=
  if !pd.url.isEmpty then pd.url else if !pc.url.isEmpty then pc.url else k

/-- The URL actually committed by the Accepted / SavedNoAdmin paths:
`normalize_url(pd_data.get("url") or pc_data.get("url") or post_url_norm)`. -/
def commitKey (pd : PdData) (pc : PcData) (k : Str) : Str :=
  normalize_fp (chooseUrlRaw pd pc k)

/-- The pure classification decision of `main` (src/filterPosts.py lines
254–306): partition by `is_admin_like` first; with admins present only
admin comments are target-matched, otherwise all comments are. -/
def classifyPost (staff : List Str) (comments : List Comment) : FOutcome :=
  let admins := comments.filter (fun c => isAdminLike c staff)
  if !admins.isEmpty then
    if !(admins.filter (fun c => textMatchesTargets c.text)).isEmpty then FOutcome.Accepted
    else FOutcome.RejectedWithAdmin
  else
    if !(comments.filter (fun c => textMatchesTargets c.text)).isEmpty then FOutcome.SavedNoAdmin
    else FOutcome.RejectedNoAdmin

/-- Outcome of one `filterPosts.main` invocation on input `u`. -/
def outcomeOf (L : LedgerState) (staff : List Str) (u : Str) (pc : PcData) : FOutcome :=
  let k := normalize_fp (stripStr u)
  if alreadyProcessed L k then FOutcome.Skipped
  else classifyPost staff (pickComments pc)

/-- Observable events of one `filterPosts.main` invocation: collaborator
invocations and ledger appends, in program order. -/
inductive Ev : Type
  | fetchC
  | fetchD
  | appAcc (v : Str)
  | appNon (vs : List Str)
  | appRej (v : Str)
  | appLog (v : Str) (n : Nat) (status : Str)
deriving DecidableEq

/-- The `seen`-set dedup of the extra SavedNoAdmin rows (src/filterPosts.py
lines 327–334): keep each `(commenter, text)` pair once. -/
def dedupNewPairs (seen : List (Str × Str)) : List (Str × Str) → List (Str × Str)
  | [] => []
  | p :: t => if seen.contains p then dedupNewPairs seen t else p :: dedupNewPairs (p :: seen) t

/-- URL-column values of the row block appended by the SavedNoAdmin path:
a full first row keyed by `key`, then one `"-"` placeholder row per further
distinct `(commenter, text)` pair. -/
def nonAdminRowUrls (key : Str) (snakes : List Comment) : List Str :=
  match snakes with
  | [] => [key]
  | c0 :: rest =>
    key :: (dedupNewPairs [(oneline c0.commenter, oneline c0.text)]
      (rest.map (fun c => (oneline c.commenter, oneline c.text)))).map (fun _ => ("-".toList))

def statusAccepted : Str := "Accepted".toList

def statusRejWith : Str := "Rejected - w/admin".toList

def statusSaved : Str := "Saved - no admin".toList

def statusRejNo : Str := "Rejected - no admin".toList

/-- Event list of one `filterPosts.main` invocation (src/filterPosts.py
lines 233–348), against ledger state `L`.  Every guard reads `L`, which is
faithful because the single outcome append of a run precedes no guard. -/
def runEvents (L : LedgerState) (staff : List Str) (u : Str) (pc : PcData) (pd : PdData) :
    List Ev :=
  let k := normalize_fp (stripStr u)
  if alreadyProcessed L k then []
  else
    let comments := pickComments pc
    let tot := effTotal pc comments
    let admins := comments.filter (fun c => isAdminLike c staff)
    if !admins.isEmpty then
      let adminSnake := admins.filter (fun c => textMatchesTargets c.text)
      if !adminSnake.isEmpty then
        let key := commitKey pd pc k
        [Ev.fetchC, Ev.fetchD] ++
          (if urlInLedger L.accepted key then [] else [Ev.appAcc key]) ++
          [Ev.appLog key tot statusAccepted]
      else
        [Ev.fetchC] ++
          (if urlInLedger L.rejected k then [] else [Ev.appRej k]) ++
          [Ev.appLog k tot statusRejWith]
    else
      let snakes := comments.filter (fun c => textMatchesTargets c.text)
      if !snakes.isEmpty then
        let key := commitKey pd pc k
        [Ev.fetchC, Ev.fetchD] ++
          (if urlInLedger L.nonadmin key then [] else [Ev.appNon (nonAdminRowUrls key snakes)]) ++
          [Ev.appLog key tot statusSaved]
      else
        [Ev.fetchC] ++
          (if urlInLedger L.rejected k then [] else [Ev.appRej k]) ++
          [Ev.appLog k tot statusRejNo]

/-- Effect of one event on the ledger files. -/
def applyEv (L : LedgerState) : Ev → LedgerState
  | Ev.fetchC => L
  | Ev.fetchD => L
  | Ev.appAcc v => { L with accepted := L.accepted ++ [v] }
  | Ev.appNon vs => { L with nonadmin := L.nonadmin ++ vs }
  | Ev.appRej v => { L with rejected := L.rejected ++ [v] }
  | Ev.appLog v n st => { L with runLog := L.runLog ++ [(v, n, st)] }

/-- One classification run: its input URL, the collaborator results it
would observe, the staff roster, and the number of events it completes
before (possibly) being interrupted. -/
structure RunInput where
  u : Str
  pc : PcData
  pd : PdData
  staff : List Str
  steps : Nat

/-- Execute one (possibly interrupted) run. -/
def applyRun (L : LedgerState) (r : RunInput) : LedgerState :=
  ((runEvents L r.staff r.u r.pc r.pd).take r.steps).foldl applyEv L

/-- Execute a sequence of runs. -/
def execRuns (L : LedgerState) (runs : List RunInput) : LedgerState :=
  runs.foldl applyRun L

def emptyLedgers : LedgerState := {}

/-- All rows of the union of the three outcome ledgers. -/
def unionRows (L : LedgerState) : List Str :=
  L.accepted ++ L.nonadmin ++ L.rejected

/-- Number of union rows keyed (via normalisation, as `url_in_csv` reads
them) by `k`. -/
def rowCount (L : LedgerState) (k : Str) : Nat :=
  (unionRows L).countP (fun v => normalize_fp v == k)

/-- `done_contains` (src/run_filters.py lines 62–75) on the done-ledger's
URL column. -/
def doneContains (done : List Str) (urlNorm : Str) : Bool :=
  done.any (fun v =>
    let w := normalize_rf (stripStr v)
    !w.isEmpty && (w == urlNorm))

/-- `append_done_url_now` (src/run_filters.py lines 77–90). -/
def appendDoneUrlNow (done : List Str) (u : Str) : List Str :=
  let n := normalize_rf u
  if n.isEmpty then done
  else if doneContains done n then done
  else done ++ [n]

/-- Removal of a URL from the pending work-list (src/run_filters.py lines
245–247 / 254–256). -/
def removePending (pending : List Str) (u : Str) : List Str :=
  pending.filter (fun row => !(normalize_rf row == normalize_rf u))

/-- `run_and_act_streaming`'s immediate action once the child's outcome
marker is seen (src/run_filters.py lines 244–259): skip removes the URL
from the pending list only; the four decided outcomes first append to the
done-ledger and then remove. -/
def rfAct (pending done : List Str) (u : Str) : FOutcome → (List Str × List Str)
  | FOutcome.Skipped => (removePending pending u, done)
  | _ => (removePending pending u, appendDoneUrlNow done u)

example : classifyPost [] [{ text := "Saw a Naja philippinensis near the creek".toList, commenter := "Jane".toList }] = FOutcome.SavedNoAdmin := by decide
example : classifyPost [("jane".toList)] [{ text := "Saw a Naja philippinensis near the creek".toList, commenter := "Jane".toList }] = FOutcome.Accepted := by decide
example : classifyPost [] [{ text := "#admin noted, not relevant".toList, commenter := "Mod".toList }, { text := "king cobra!".toList, commenter := "Bob".toList }] = FOutcome.RejectedWithAdmin := by decide
example : classifyPost [] [] = FOutcome.RejectedNoAdmin := by decide

/-- File operations performed by an append helper, in order. -/
inductive FileOp : Type
  | openA
  | writeRow
  | flush
  | fsync
  | close
deriving DecidableEq

/-- Operation trace of `append_rows` (src/filterPosts.py lines 171–176),
used for every outcome-ledger and run-log append: early-return on an empty
row list, else `with open(..., "a")` / `writerows` / implicit close.  The
source contains no `flush` and no `fsync` call. -/
def appendRowsTrace (n : Nat) : List FileOp :=
  if n = 0 then [] else [FileOp.openA] ++ List.replicate n FileOp.writeRow ++ [FileOp.close]

/-- Operation trace of `append_one` (src/scrapePosts.py lines 124–132),
used for every pending-candidates append: open, write, `f.flush()`,
`os.fsync(f.fileno())`, close. -/
def appendOneTrace : List FileOp :=
  [FileOp.openA, FileOp.writeRow, FileOp.flush, FileOp.fsync, FileOp.close]

/-- Operation trace of the append block of `append_done_url_now`
(src/run_filters.py lines 85–90), used for every done-URLs append. -/
def appendDoneTrace : List FileOp :=
  [FileOp.openA, FileOp.writeRow, FileOp.flush, FileOp.fsync, FileOp.close]

/-- What the environment offers the collection loop in one round: the
canonicalised post-pattern hrefs of the snapshot, whether the post-scroll
polling wait observed observer growth, and whether one of the nudge
scrolls observed observer growth.  The source reads the nudge observation
only to reset `__feedAdded` (src/scrapePosts.py lines 547–563); the stall
decision on line 565 consults only `added` and `saw_new`. -/
structure RoundObs where
  snapshot : List Str
  sawNew : Bool
  nudgeGrowth : Bool

def TARGET_NEW : Nat := 5000

def MAX_SCROLLS : Nat := 6000

def STALL_LIMIT : Nat := 8

/-- Loop state of `collect_after_warmup`: the `seen` set (existing ∪ done ∪
baseline ∪ collected this run), `newly_added`, and the stall counter. -/
structure CrawlSt where
  seen : List Str
  newly : Nat
  stalls : Nat

/-- `collect_now`'s delta: the snapshot as a set, minus `seen`
(src/scrapePosts.py lines 463–478; the sorted append order is immaterial
here). -/
def newDelta (seen : List Str) (snapshot : List Str) : List Str :=
  snapshot.dedup.filter (fun x => !seen.contains x)

/-- One round of the collection loop (src/scrapePosts.py lines 481–575):
collect, check the target, then stall bookkeeping; the returned flag is
"break out of the loop".  `if target_new and newly_added >= target_new`
requires a non-zero target (Python truthiness). -/
def crawlStep (st : CrawlSt) (o : RoundObs) : CrawlSt × Bool :=
  let delta := newDelta st.seen o.snapshot
  let seen' := st.seen ++ delta
  let newly' := st.newly + delta.length
  if TARGET_NEW ≠ 0 ∧ newly' ≥ TARGET_NEW then (⟨seen', newly', st.stalls⟩, true)
  else if delta.length = 0 ∧ o.sawNew = false then
    (⟨seen', newly', st.stalls + 1⟩, decide (st.stalls + 1 ≥ STALL_LIMIT))
  else (⟨seen', newly', 0⟩, false)

/-- The `while i < max_scrolls` loop, driven by fuel `max_scrolls - i`;
returns the number of rounds executed (the final value of `i`, counting a
breaking round as executed). -/
def crawlLoop (env : Nat → RoundObs) : Nat → Nat → CrawlSt → Nat
  | 0, i, _ => i
  | f + 1, i, st =>
    let r := crawlStep st (env i)
    if r.2 then i + 1 else crawlLoop env f (i + 1) r.1

/-- Rounds executed by one `collect_after_warmup` collection phase started
with seen-set `seen0`. -/
def executedRounds (env : Nat → RoundObs) (seen0 : List Str) : Nat :=
  crawlLoop env MAX_SCROLLS 0 ⟨seen0, 0, 0⟩

def bomChar : Char := '﻿'

/-- `re.sub(r"\s+", " ", s)`: every maximal whitespace run becomes one
space. -/
def collapseWs : Str → Str
  | [] => []
  | c :: rest =>
    if isWs c then
      match rest with
      | [] => [' ']
      | c2 :: _ => if isWs c2 then collapseWs rest else ' ' :: collapseWs rest
    else c :: collapseWs rest

/-- `filterPosts._clean_fieldname` (src/filterPosts.py lines 178–183):
remove every BOM character, strip, collapse whitespace, lower-case. -/
def cleanFieldname (fn : Str) : Str :=
  toLowerStr (collapseWs (stripStr (fn.filter (fun c => c ≠ bomChar))))

/-- Python dict insertion: an existing key keeps its position and takes the
new value, a new key is appended. -/
def insertKV : List (Str × Str) → Str → Str → List (Str × Str)
  | [], k, v => [(k, v)]
  | (k', v') :: t, k, v => if k' = k then (k', v) :: t else (k', v') :: insertKV t k v

/-- `{ _clean_fieldname(fn): fn for fn in fieldnames }` in insertion
order. -/
def cleanedToOrig (fns : List Str) : List (Str × Str) :=
  fns.foldl (fun m fn => insertKV m (cleanFieldname fn) fn) []

def lookupKV : List (Str × Str) → Str → Option Str
  | [], _ => none
  | (k', v) :: t, k => if k' = k then some v else lookupKV t k

/-- The `for cleaned, orig in cleaned_to_orig.items()` fallback: first
entry whose non-empty cleaned name contains `"url"`. -/
def findContainsUrl : List (Str × Str) → Option Str
  | [] => none
  | (k, v) :: t =>
    if !k.isEmpty && containsSub ("url".toList) k then some v else findContainsUrl t

/-- `filterPosts._find_url_column` (src/filterPosts.py lines 185–195). -/
def findUrlColumn (fns : List Str) : Option Str :=
  if fns.isEmpty then none else
  let m := cleanedToOrig fns
  match lookupKV m ("post url".toList) with
  | some v => some v
  | none =>
    match lookupKV m ("url".toList) with
    | some v => some v
    | none => findContainsUrl m

/-- A CSV file: one header row and its data rows. -/
structure CsvFile where
  headers : List Str
  rows : List (List Str)

/-- Index used by `csv.DictReader` for a fieldname: with duplicated header
names the later column wins. -/
def lastIdxOf (hs : List Str) (col : Str) : Nat :=
  hs.length - 1 - hs.reverse.findIdx (fun h => h == col)

/-- `row.get(url_col) or ""` under `DictReader`. -/
def cellAt (hs : List Str) (row : List Str) (col : Str) : Str :=
  row.getD (lastIdxOf hs col) []

/-- `url_in_csv` (src/filterPosts.py lines 197–209) on a full CSV file. -/
def urlInCsvFile (f : CsvFile) (urlNorm : Str) : Bool :=
  match findUrlColumn f.headers with
  | none => false
  | some col =>
    f.rows.any (fun row =>
      let v := normalize_fp (cellAt f.headers row col)
      !v.isEmpty && (v == urlNorm))

example : findUrlColumn [("Post URL".toList), ("date".toList)] = some ("Post URL".toList) := by decide
example : findUrlColumn [("﻿url".toList), ("x".toList)] = some ("﻿url".toList) := by decide
example : findUrlColumn [("the  URL col".toList)] = some ("the  URL col".toList) := by decide
example : findUrlColumn [("name".toList), ("text".toList)] = none := by decide
example : urlInCsvFile ⟨[("post url".toList), ("date".toList)], [[("https://www.facebook.com/posts/1/".toList), ("2024-01-01".toList)]]⟩ ("https://www.facebook.com/posts/1".toList) = true := by decide

lemma filter_isEmpty_not_any (p : α → Bool) (l : List α) :
    (l.filter p).isEmpty = !l.any p := by
  induction l with
  | nil => rfl
  | cons a t ih => cases h : p a <;> simp [List.filter_cons, h, ih]

/-- C3 counterexample: the claim says every ledger append forces an
operating-system-level sync, but the outcome-ledger/run-log append helper
`append_rows` performs no fsync (nor an explicit flush). -/
theorem c3_counterexample : FileOp.fsync ∉ appendRowsTrace 1 := by decide

/-- C3 (amended): the pending-candidates append (`append_one`) and the
done-URLs append (`append_done_url_now`) open, write, flush and fsync
before closing, but the outcome-ledger and run-log appends (`append_rows`)
only open, write and close, with no explicit flush and no OS-level sync. -/
theorem c3_durability_amended : ∀ n : Nat,
    appendOneTrace = [FileOp.openA, FileOp.writeRow, FileOp.flush, FileOp.fsync, FileOp.close] ∧
    appendDoneTrace = [FileOp.openA, FileOp.writeRow, FileOp.flush, FileOp.fsync, FileOp.close] ∧
    FileOp.flush ∉ appendRowsTrace n ∧ FileOp.fsync ∉ appendRowsTrace n := by
  intro n
  refine ⟨rfl, rfl, ?_, ?_⟩ <;>
    · unfold appendRowsTrace
      split
      · simp
      · simp [List.mem_replicate]

/-- C2: whenever a post has at least one admin-like comment, the outcome is
decided by target-matching the admin-like comments only (`Accepted` when
one of them matches, else `RejectedWithAdmin`); in particular a non-admin
comment matching a target pattern next to a non-matching admin-like
comment yields `RejectedWithAdmin`, never `SavedNoAdmin`. -/
theorem c2_admin_priority :
    (∀ (staff : List Str) (comments : List Comment),
      comments.any (fun c => isAdminLike c staff) = true →
      classifyPost staff comments ≠ FOutcome.SavedNoAdmin ∧
      classifyPost staff comments =
        (if (comments.filter (fun c => isAdminLike c staff)).any
              (fun c => textMatchesTargets c.text)
         then FOutcome.Accepted else FOutcome.RejectedWithAdmin)) ∧
    (∀ (staff : List Str) (c1 c2 : Comment),
      isAdminLike c1 staff = false →
      isAdminLike c2 staff = true →
      textMatchesTargets c1.text = true →
      textMatchesTargets c2.text = false →
      classifyPost staff [c1, c2] = FOutcome.RejectedWithAdmin) := by
  constructor
  · intro staff comments h
    unfold classifyPost
    simp only [filter_isEmpty_not_any, h, Bool.not_true, Bool.not_false, Bool.not_not,
      if_true, List.any_filter]
    constructor
    · split <;> simp
    · trivial
  · intro staff c1 c2 h1 h2 h3 h4
    unfold classifyPost
    simp [List.filter_cons, h1, h2, h4, filter_isEmpty_not_any]

/-- C2 witness: a roster admin whose comment mentions no target, next to a
non-admin "king cobra" mention, is rejected-with-admin. -/
theorem c2_witness :
    classifyPost [("jane".toList)]
      [{ commenter := "Bob".toList, text := "king cobra near the bridge".toList },
       { commenter := "Jane".toList, text := "noted - not our species".toList }] =
      FOutcome.RejectedWithAdmin :=
  c2_admin_priority.2 _ _ _ (by decide) (by decide) (by decide) (by decide)

/-- C6 counterexample: a round whose snapshot added nothing and whose
polling wait saw nothing still increments the stall counter even though a
nudge observed growth (`nudgeGrowth = true`); the claim would reset the
counter to zero. -/
theorem c6_counterexample :
    (crawlStep ⟨[], 0, 0⟩ ⟨[], false, true⟩).1.stalls = 1 ∧
    ¬ (crawlStep ⟨[], 0, 0⟩ ⟨[], false, true⟩).1.stalls = 0 := by
  refine ⟨?_, ?_⟩ <;> decide

/-- C6 (amended): in a round that does not stop for the target, the stall
counter is incremented exactly when the snapshot step discovered nothing
new and the post-scroll polling wait saw no growth, and reset to zero
otherwise; growth observed only by a nudge neither prevents the increment
nor resets the counter (it is ignored by the stall decision). -/
theorem c6_stall_semantics :
    ∀ (st : CrawlSt) (o : RoundObs),
      ¬ (TARGET_NEW ≠ 0 ∧ st.newly + (newDelta st.seen o.snapshot).length ≥ TARGET_NEW) →
      (crawlStep st o).1.stalls =
        (if (newDelta st.seen o.snapshot).length = 0 ∧ o.sawNew = false
         then st.stalls + 1 else 0) := by
  intro st o h
  unfold crawlStep
  simp only [if_neg h]
  split <;> simp

/-- C6 witness: a round with polling growth resets the counter to zero. -/
theorem c6_witness :
    (crawlStep ⟨[], 0, 3⟩ ⟨[], true, false⟩).1.stalls = 0 := by
  have h := c6_stall_semantics ⟨[], 0, 3⟩ ⟨[], true, false⟩ (by decide)
  simpa using h

/-- C5: a candidate URL already present (under normalisation) in an outcome
ledger is `Skipped`: the run produces no events at all — no collaborator
fetch, no outcome-ledger append, no run-log append — and the orchestrator
removes the URL from the pending work-list without touching the done-URLs
ledger. -/
theorem c5_skip_path :
    ∀ (L : LedgerState) (staff : List Str) (u : Str) (pc : PcData) (pd : PdData)
      (pending done : List Str),
      alreadyProcessed L (normalize_fp (stripStr u)) = true →
      outcomeOf L staff u pc = FOutcome.Skipped ∧
      runEvents L staff u pc pd = [] ∧
      rfAct pending done u (outcomeOf L staff u pc) = (removePending pending u, done) := by
  intro L staff u pc pd pending done h
  have h1 : outcomeOf L staff u pc = FOutcome.Skipped := by
    unfold outcomeOf
    rw [if_pos h]
  refine ⟨h1, ?_, ?_⟩
  · unfold runEvents
    rw [if_pos h]
  · rw [h1]
    rfl

/-- C5 witness: re-running on a URL whose normalisation sits in the
Accepted ledger is skipped with no events and no done-ledger append. -/
theorem c5_witness :
    outcomeOf ⟨[("https://www.facebook.com/posts/77".toList)], [], [], []⟩ []
        ("https://www.facebook.com/posts/77".toList) {} = FOutcome.Skipped ∧
    runEvents ⟨[("https://www.facebook.com/posts/77".toList)], [], [], []⟩ []
        ("https://www.facebook.com/posts/77".toList) {} {} = [] ∧
    rfAct [("https://www.facebook.com/posts/77".toList)] []
        ("https://www.facebook.com/posts/77".toList)
        (outcomeOf ⟨[("https://www.facebook.com/posts/77".toList)], [], [], []⟩ []
          ("https://www.facebook.com/posts/77".toList) {}) =
      ([], []) := by
  have h := c5_skip_path ⟨[("https://www.facebook.com/posts/77".toList)], [], [], []⟩ []
    ("https://www.facebook.com/posts/77".toList) {} {}
    [("https://www.facebook.com/posts/77".toList)] [] (by decide)
  refine ⟨h.1, h.2.1, ?_⟩
  rw [h.2.2]
  decide

def c10U : Str := "https://www.facebook.com/groups/g/permalink/321".toList

def c10K : Str := "https://www.facebook.com/posts/321".toList

def c10Pc : PcData :=
  { comments := some [{ commenter := "Mod".toList,
                        text := "naja samarensis confirmed".toList,
                        isAdmin := true }] }

def c10Pd : PdData := { url := c10K }

/-- C10: on the Accepted and SavedNoAdmin paths the URL appended to the
outcome ledger and to the run-log, and the key of the pre-append duplicate
check, is `commitKey` — the normalisation of the post-details result's URL
when non-empty, else the comments result's URL, else the normalised input —
and this key can differ from the normalised input URL that the initial
skip check tested. -/
theorem c10_commit_key :
    (∀ (L : LedgerState) (staff : List Str) (u : Str) (pc : PcData) (pd : PdData),
      outcomeOf L staff u pc = FOutcome.Accepted →
      runEvents L staff u pc pd =
        [Ev.fetchC, Ev.fetchD] ++
          (if urlInLedger L.accepted (commitKey pd pc (normalize_fp (stripStr u))) then []
           else [Ev.appAcc (commitKey pd pc (normalize_fp (stripStr u)))]) ++
          [Ev.appLog (commitKey pd pc (normalize_fp (stripStr u)))
            (effTotal pc (pickComments pc)) statusAccepted]) ∧
    (∀ (L : LedgerState) (staff : List Str) (u : Str) (pc : PcData) (pd : PdData),
      outcomeOf L staff u pc = FOutcome.SavedNoAdmin →
      runEvents L staff u pc pd =
        [Ev.fetchC, Ev.fetchD] ++
          (if urlInLedger L.nonadmin (commitKey pd pc (normalize_fp (stripStr u))) then []
           else [Ev.appNon (nonAdminRowUrls (commitKey pd pc (normalize_fp (stripStr u)))
             ((pickComments pc).filter (fun c => textMatchesTargets c.text)))]) ++
          [Ev.appLog (commitKey pd pc (normalize_fp (stripStr u)))
            (effTotal pc (pickComments pc)) statusSaved]) ∧
    (∃ (L : LedgerState) (staff : List Str) (u : Str) (pc : PcData) (pd : PdData),
      outcomeOf L staff u pc = FOutcome.Accepted ∧
      commitKey pd pc (normalize_fp (stripStr u)) ≠ normalize_fp (stripStr u)) := by
  refine ⟨?_, ?_, ?_⟩
  · intro L staff u pc pd h
    by_cases hs : alreadyProcessed L (normalize_fp (stripStr u)) = true
    · simp [outcomeOf, hs] at h
    · by_cases ha : ((pickComments pc).filter (fun c => isAdminLike c staff)).isEmpty = true
      · have hne : outcomeOf L staff u pc ≠ FOutcome.Accepted := by
          simp only [outcomeOf, classifyPost]
          rw [if_neg hs, if_neg (by rw [ha]; decide)]
          split <;> decide
        exact absurd h hne
      · have ha' : (!((pickComments pc).filter (fun c => isAdminLike c staff)).isEmpty) = true := by
          simp only [Bool.not_eq_true] at ha
          rw [ha]
          decide
        by_cases hm : (((pickComments pc).filter (fun c => isAdminLike c staff)).filter
            (fun c => textMatchesTargets c.text)).isEmpty = true
        · have hne : outcomeOf L staff u pc ≠ FOutcome.Accepted := by
            simp only [outcomeOf, classifyPost]
            rw [if_neg hs, if_pos ha', if_neg (by rw [hm]; decide)]
            decide
          exact absurd h hne
        · have hm' : (!(((pickComments pc).filter (fun c => isAdminLike c staff)).filter
              (fun c => textMatchesTargets c.text)).isEmpty) = true := by
            simp only [Bool.not_eq_true] at hm
            rw [hm]
            decide
          simp only [runEvents]
          rw [if_neg hs, if_pos ha', if_pos hm']
  · intro L staff u pc pd h
    by_cases hs : alreadyProcessed L (normalize_fp (stripStr u)) = true
    · simp [outcomeOf, hs] at h
    · by_cases ha : ((pickComments pc).filter (fun c => isAdminLike c staff)).isEmpty = true
      · by_cases hn : ((pickComments pc).filter (fun c => textMatchesTargets c.text)).isEmpty = true
        · have hne : outcomeOf L staff u pc ≠ FOutcome.SavedNoAdmin := by
            simp only [outcomeOf, classifyPost]
            rw [if_neg hs, if_neg (by rw [ha]; decide), if_neg (by rw [hn]; decide)]
            decide
          exact absurd h hne
        · have hn' : (!((pickComments pc).filter (fun c => textMatchesTargets c.text)).isEmpty) = true := by
            simp only [Bool.not_eq_true] at hn
            rw [hn]
            decide
          simp only [runEvents]
          rw [if_neg hs, if_neg (by rw [ha]; decide), if_pos hn']
      · have ha' : (!((pickComments pc).filter (fun c => isAdminLike c staff)).isEmpty) = true := by
          simp only [Bool.not_eq_true] at ha
          rw [ha]
          decide
        have hne : outcomeOf L staff u pc ≠ FOutcome.SavedNoAdmin := by
          simp only [outcomeOf, classifyPost]
          rw [if_neg hs, if_pos ha']
          split <;> decide
        exact absurd h hne
  · exact ⟨emptyLedgers, [], c10U, c10Pc, c10Pd, by decide, by decide⟩

/-- C10 witness: a concrete Accepted run whose committed key comes from
the post-details collaborator. -/
theorem c10_witness :
    runEvents emptyLedgers [] c10U c10Pc c10Pd =
      [Ev.fetchC, Ev.fetchD] ++
        (if urlInLedger emptyLedgers.accepted (commitKey c10Pd c10Pc (normalize_fp (stripStr c10U)))
         then []
         else [Ev.appAcc (commitKey c10Pd c10Pc (normalize_fp (stripStr c10U)))]) ++
        [Ev.appLog (commitKey c10Pd c10Pc (normalize_fp (stripStr c10U)))
          (effTotal c10Pc (pickComments c10Pc)) statusAccepted] :=
  c10_commit_key.1 emptyLedgers [] c10U c10Pc c10Pd (by decide)

def c1U : Str := "https://www.facebook.com/groups/g/permalink/123".toList

def c1K : Str := "https://www.facebook.com/posts/123".toList

def c1Run1 : RunInput :=
  { u := c1U,
    pc := { comments := some [{ commenter := "Mod".toList,
                                text := "naja philippinensis confirmed".toList,
                                isAdmin := true }] },
    pd := { url := c1K },
    staff := [],
    steps := 4 }

def c1Run2 : RunInput :=
  { u := c1U,
    pc := { comments := some [{ commenter := "Bob".toList,
                                text := "king cobra spotted".toList }] },
    pd := { url := c1K },
    staff := [],
    steps := 4 }

/-- C1 counterexample: two complete (uninterrupted) runs on the same
candidate URL — one classified Accepted, a later one SavedNoAdmin after the
comments changed — both commit under the post-details collaborator's URL,
which differs from the normalised input that the skip check tested; the
union of the outcome ledgers ends with two rows keyed by that canonical
URL. -/
theorem c1_counterexample :
    rowCount (execRuns emptyLedgers [c1Run1, c1Run2]) c1K = 2 := by decide

def dashStr : Str := "-".toList

/-- Stored ledger values that are normalisation fixed points and non-empty
(which is what this program itself writes). -/
def FixNE (rows : List Str) : Prop :=
  ∀ v ∈ rows, normalize_fp v = v ∧ v ≠ []

/-- Invariant carried across runs: well-formed stored values, and at most
one union row per key other than the `"-"` placeholder. -/
def LedgerInv (L : LedgerState) : Prop :=
  FixNE L.accepted ∧ FixNE L.nonadmin ∧ FixNE L.rejected ∧
  ∀ k, k ≠ dashStr → rowCount L k ≤ 1

/-- Hypotheses of the amended C1 under which a run's commit key coincides
with the key its skip check tested: the normalised input is stable under
re-normalisation, is a real URL, and the collaborator-reported URLs
normalise back to it. -/
def goodRun (r : RunInput) : Prop :=
  normalize_fp (normalize_fp (stripStr r.u)) = normalize_fp (stripStr r.u) ∧
  normalize_fp (stripStr r.u) ≠ [] ∧
  normalize_fp (stripStr r.u) ≠ dashStr ∧
  commitKey r.pd r.pc (normalize_fp (stripStr r.u)) = normalize_fp (stripStr r.u)

lemma countP_key_zero (rows : List Str) (n : Str) (hfix : FixNE rows) (h : n ∉ rows) :
    rows.countP (fun v => normalize_fp v == n) = 0 := by
  rw [List.countP_eq_zero]
  intro v hv
  rw [(hfix v hv).1, beq_iff_eq]
  intro he
  exact h (he ▸ hv)

lemma urlInLedger_iff_mem (rows : List Str) (n : Str) (hfix : FixNE rows) :
    urlInLedger rows n = true ↔ n ∈ rows := by
  unfold urlInLedger
  rw [List.any_eq_true]
  constructor
  · rintro ⟨v, hv, hcond⟩
    rw [Bool.and_eq_true, beq_iff_eq] at hcond
    obtain ⟨-, h2⟩ := hcond
    rw [(hfix v hv).1] at h2
    exact h2 ▸ hv
  · intro hn
    refine ⟨n, hn, ?_⟩
    obtain ⟨hfx, hne⟩ := hfix n hn
    rw [Bool.and_eq_true, beq_iff_eq, hfx]
    refine ⟨?_, rfl⟩
    cases n with
    | nil => exact absurd rfl hne
    | cons a t => rfl

lemma rowCount_split (L : LedgerState) (k : Str) :
    rowCount L k =
      L.accepted.countP (fun v => normalize_fp v == k) +
      L.nonadmin.countP (fun v => normalize_fp v == k) +
      L.rejected.countP (fun v => normalize_fp v == k) := by
  unfold rowCount unionRows
  rw [List.countP_append, List.countP_append]

lemma map_const_replicate (l : List α) (b : β) :
    l.map (fun _ => b) = List.replicate l.length b := by
  induction l with
  | nil => rfl
  | cons a t ih => simp [List.replicate_succ, ih]

lemma nonAdminRowUrls_eq (key : Str) (snakes : List Comment) :
    ∃ m, nonAdminRowUrls key snakes = key :: List.replicate m dashStr := by
  unfold nonAdminRowUrls
  cases snakes with
  | nil => exact ⟨0, rfl⟩
  | cons c0 rest =>
    refine ⟨(dedupNewPairs [(oneline c0.commenter, oneline c0.text)]
      (rest.map (fun c => (oneline c.commenter, oneline c.text)))).length, ?_⟩
    dsimp only
    rw [map_const_replicate]
    rfl

lemma countP_key_replicate_dash (m : Nat) (k : Str) (hk : k ≠ dashStr) :
    (List.replicate m dashStr).countP (fun v => normalize_fp v == k) = 0 := by
  rw [List.countP_eq_zero]
  intro v hv
  rw [List.eq_of_mem_replicate hv]
  have hd : normalize_fp dashStr = dashStr := by decide
  rw [hd, beq_iff_eq]
  intro he
  exact hk he.symm

lemma countP_key_single (n k : Str) (hfx : normalize_fp n = n) :
    List.countP (fun v => normalize_fp v == k) [n] = (if n = k then 1 else 0) := by
  rw [List.countP_cons, List.countP_nil, hfx]
  by_cases h : n = k
  · simp [h]
  · simp [h, beq_iff_eq]

lemma inv_addLog (L : LedgerState) (x : Str × Nat × Str) (hI : LedgerInv L) :
    LedgerInv { L with runLog := L.runLog ++ [x] } := hI

lemma inv_addAcc (L : LedgerState) (n : Str) (hI : LedgerInv L)
    (hfx : normalize_fp n = n) (hne : n ≠ []) (hnd : n ≠ dashStr)
    (h1 : n ∉ L.accepted) (h2 : n ∉ L.nonadmin) (h3 : n ∉ L.rejected) :
    LedgerInv { L with accepted := L.accepted ++ [n] } := by
  obtain ⟨hA, hN, hR, hC⟩ := hI
  refine ⟨?_, hN, hR, ?_⟩
  · intro v hv
    rcases List.mem_append.mp hv with h | h
    · exact hA v h
    · rw [List.mem_singleton] at h
      subst h
      exact ⟨hfx, hne⟩
  · intro k hk
    rw [rowCount_split]
    dsimp only
    rw [List.countP_append, countP_key_single n k hfx]
    have hold := hC k hk
    rw [rowCount_split] at hold
    by_cases hkn : n = k
    · subst hkn
      rw [countP_key_zero L.accepted n hA h1, countP_key_zero L.nonadmin n hN h2,
          countP_key_zero L.rejected n hR h3]
      simp
    · rw [if_neg hkn]
      omega

lemma inv_addRej (L : LedgerState) (n : Str) (hI : LedgerInv L)
    (hfx : normalize_fp n = n) (hne : n ≠ []) (hnd : n ≠ dashStr)
    (h1 : n ∉ L.accepted) (h2 : n ∉ L.nonadmin) (h3 : n ∉ L.rejected) :
    LedgerInv { L with rejected := L.rejected ++ [n] } := by
  obtain ⟨hA, hN, hR, hC⟩ := hI
  refine ⟨hA, hN, ?_, ?_⟩
  · intro v hv
    rcases List.mem_append.mp hv with h | h
    · exact hR v h
    · rw [List.mem_singleton] at h
      subst h
      exact ⟨hfx, hne⟩
  · intro k hk
    rw [rowCount_split]
    dsimp only
    rw [List.countP_append, countP_key_single n k hfx]
    have hold := hC k hk
    rw [rowCount_split] at hold
    by_cases hkn : n = k
    · subst hkn
      rw [countP_key_zero L.accepted n hA h1, countP_key_zero L.nonadmin n hN h2,
          countP_key_zero L.rejected n hR h3]
      simp
    · rw [if_neg hkn]
      omega

lemma inv_addNon (L : LedgerState) (n : Str) (m : Nat) (hI : LedgerInv L)
    (hfx : normalize_fp n = n) (hne : n ≠ []) (hnd : n ≠ dashStr)
    (h1 : n ∉ L.accepted) (h2 : n ∉ L.nonadmin) (h3 : n ∉ L.rejected) :
    LedgerInv { L with nonadmin := L.nonadmin ++ (n :: List.replicate m dashStr) } := by
  obtain ⟨hA, hN, hR, hC⟩ := hI
  refine ⟨hA, ?_, hR, ?_⟩
  · intro v hv
    rcases List.mem_append.mp hv with h | h
    · exact hN v h
    · rcases List.mem_cons.mp h with h' | h'
      · subst h'
        exact ⟨hfx, hne⟩
      · rw [List.eq_of_mem_replicate h']
        exact ⟨by decide, by decide⟩
  · intro k hk
    rw [rowCount_split]
    dsimp only
    rw [List.countP_append, List.countP_cons, countP_key_replicate_dash m k hk, hfx]
    have hold := hC k hk
    rw [rowCount_split] at hold
    by_cases hkn : n = k
    · subst hkn
      rw [countP_key_zero L.accepted n hA h1, countP_key_zero L.nonadmin n hN h2,
          countP_key_zero L.rejected n hR h3]
      simp
    · have : (n == k) = false := by
        rw [Bool.eq_false_iff]
        intro hc
        exact hkn (by rwa [beq_iff_eq] at hc)
      rw [this]
      simp only [Nat.zero_add, if_false, Bool.false_eq_true]
      omega

lemma bnot_true_of_ne {b : Bool} (h : ¬ b = true) : (!b) = true := by
  cases b
  · rfl
  · exact absurd rfl h

lemma bnot_ne_true_of_eq {b : Bool} (h : b = true) : ¬ ((!b) = true) := by
  subst h
  decide

lemma applyRun_inv (L : LedgerState) (r : RunInput) (hI : LedgerInv L) (hr : goodRun r) :
    LedgerInv (applyRun L r) := by
  obtain ⟨hidem, hne, hnd, hck⟩ := hr
  unfold applyRun
  by_cases hs : alreadyProcessed L (normalize_fp (stripStr r.u)) = true
  · simp only [runEvents]
    rw [if_pos hs]
    simpa using hI
  · have hsf : alreadyProcessed L (normalize_fp (stripStr r.u)) = false := by
      cases hval : alreadyProcessed L (normalize_fp (stripStr r.u))
      · rfl
      · exact absurd hval hs
    have hng : urlInLedger L.accepted (normalize_fp (stripStr r.u)) = false ∧
        urlInLedger L.nonadmin (normalize_fp (stripStr r.u)) = false ∧
        urlInLedger L.rejected (normalize_fp (stripStr r.u)) = false := by
      unfold alreadyProcessed at hsf
      rw [hidem] at hsf
      simp only [Bool.or_eq_false_iff] at hsf
      exact ⟨hsf.1.1, hsf.1.2, hsf.2⟩
    have hm1 : normalize_fp (stripStr r.u) ∉ L.accepted := by
      intro hm
      have h' := (urlInLedger_iff_mem L.accepted _ hI.1).mpr hm
      rw [hng.1] at h'
      simp at h'
    have hm2 : normalize_fp (stripStr r.u) ∉ L.nonadmin := by
      intro hm
      have h' := (urlInLedger_iff_mem L.nonadmin _ hI.2.1).mpr hm
      rw [hng.2.1] at h'
      simp at h'
    have hm3 : normalize_fp (stripStr r.u) ∉ L.rejected := by
      intro hm
      have h' := (urlInLedger_iff_mem L.rejected _ hI.2.2.1).mpr hm
      rw [hng.2.2] at h'
      simp at h'
    simp only [runEvents]
    rw [if_neg hs]
    by_cases ha : ((pickComments r.pc).filter (fun c => isAdminLike c r.staff)).isEmpty = true
    · rw [if_neg (by rw [ha]; decide)]
      by_cases hsn : ((pickComments r.pc).filter (fun c => textMatchesTargets c.text)).isEmpty = true
      · rw [if_neg (by rw [hsn]; decide), if_neg (ne_true_of_eq_false hng.2.2)]
        show LedgerInv (List.foldl applyEv L (List.take r.steps
          [Ev.fetchC, Ev.appRej (normalize_fp (stripStr r.u)),
           Ev.appLog (normalize_fp (stripStr r.u)) _ statusRejNo]))
        generalize r.steps = p
        match p with
        | 0 => exact hI
        | 1 => exact hI
        | 2 => exact inv_addRej L _ hI hidem hne hnd hm1 hm2 hm3
        | (q + 3) =>
          simp only [List.take_succ_cons, List.take_nil, List.foldl_cons, List.foldl_nil]
          exact inv_addLog _ _ (inv_addRej L _ hI hidem hne hnd hm1 hm2 hm3)
      · rw [if_pos (bnot_true_of_ne hsn), hck, if_neg (ne_true_of_eq_false hng.2.1)]
        obtain ⟨m, hmEq⟩ := nonAdminRowUrls_eq (normalize_fp (stripStr r.u))
          ((pickComments r.pc).filter (fun c => textMatchesTargets c.text))
        rw [hmEq]
        show LedgerInv (List.foldl applyEv L (List.take r.steps
          [Ev.fetchC, Ev.fetchD,
           Ev.appNon (normalize_fp (stripStr r.u) :: List.replicate m dashStr),
           Ev.appLog (normalize_fp (stripStr r.u)) _ statusSaved]))
        generalize r.steps = p
        match p with
        | 0 => exact hI
        | 1 => exact hI
        | 2 => exact hI
        | 3 => exact inv_addNon L _ m hI hidem hne hnd hm1 hm2 hm3
        | (q + 4) =>
          simp only [List.take_succ_cons, List.take_nil, List.foldl_cons, List.foldl_nil]
          exact inv_addLog _ _ (inv_addNon L _ m hI hidem hne hnd hm1 hm2 hm3)
    · rw [if_pos (bnot_true_of_ne ha)]
      by_cases hmt : (((pickComments r.pc).filter (fun c => isAdminLike c r.staff)).filter
          (fun c => textMatchesTargets c.text)).isEmpty = true
      · rw [if_neg (by rw [hmt]; decide), if_neg (ne_true_of_eq_false hng.2.2)]
        show LedgerInv (List.foldl applyEv L (List.take r.steps
          [Ev.fetchC, Ev.appRej (normalize_fp (stripStr r.u)),
           Ev.appLog (normalize_fp (stripStr r.u)) _ statusRejWith]))
        generalize r.steps = p
        match p with
        | 0 => exact hI
        | 1 => exact hI
        | 2 => exact inv_addRej L _ hI hidem hne hnd hm1 hm2 hm3
        | (q + 3) =>
          simp only [List.take_succ_cons, List.take_nil, List.foldl_cons, List.foldl_nil]
          exact inv_addLog _ _ (inv_addRej L _ hI hidem hne hnd hm1 hm2 hm3)
      · rw [if_pos (bnot_true_of_ne hmt), hck, if_neg (ne_true_of_eq_false hng.1)]
        show LedgerInv (List.foldl applyEv L (List.take r.steps
          [Ev.fetchC, Ev.fetchD, Ev.appAcc (normalize_fp (stripStr r.u)),
           Ev.appLog (normalize_fp (stripStr r.u)) _ statusAccepted]))
        generalize r.steps = p
        match p with
        | 0 => exact hI
        | 1 => exact hI
        | 2 => exact hI
        | 3 => exact inv_addAcc L _ hI hidem hne hnd hm1 hm2 hm3
        | (q + 4) =>
          simp only [List.take_succ_cons, List.take_nil, List.foldl_cons, List.foldl_nil]
          exact inv_addLog _ _ (inv_addAcc L _ hI hidem hne hnd hm1 hm2 hm3)

lemma execRuns_inv (runs : List RunInput) :
    ∀ (L : LedgerState), LedgerInv L → (∀ r ∈ runs, goodRun r) →
      LedgerInv (execRuns L runs) := by
  induction runs with
  | nil => intro L hI _; exact hI
  | cons r t ih =>
    intro L hI hg
    have h1 := applyRun_inv L r hI (hg r (List.mem_cons_self r t))
    exact ih (applyRun L r) h1 (fun r' hr' => hg r' (List.mem_cons_of_mem r hr'))

/-- C1 (amended): starting from empty ledgers, for every sequence of runs
— interrupted anywhere — in which each run's normalised input URL is a
stable non-placeholder key and the collaborator-reported URLs normalise
back to it, the union of the outcome ledgers holds at most one row per
canonical URL.  (Without the collaborator-consistency hypothesis the
property fails: see the counterexample.) -/
theorem c1_at_most_once :
    ∀ (runs : List RunInput), (∀ r ∈ runs, goodRun r) →
      ∀ k, k ≠ dashStr → rowCount (execRuns emptyLedgers runs) k ≤ 1 := by
  intro runs hg k hk
  have hI0 : LedgerInv emptyLedgers := by
    refine ⟨?_, ?_, ?_, ?_⟩
    · intro v hv; cases hv
    · intro v hv; cases hv
    · intro v hv; cases hv
    · intro k' _; exact Nat.zero_le 1
  exact (execRuns_inv runs emptyLedgers hI0 hg).2.2.2 k hk

def c1WRun : RunInput :=
  { u := "https://www.facebook.com/posts/55".toList,
    pc := { comments := some [{ commenter := "Ana".toList,
                                text := "samar cobra in the yard".toList }] },
    pd := {},
    staff := [],
    steps := 4 }

/-- C1 witness: a consistent run commits its URL at most once. -/
theorem c1_witness :
    rowCount (execRuns emptyLedgers [c1WRun]) ("https://www.facebook.com/posts/55".toList) ≤ 1 := by
  have h := c1_at_most_once [c1WRun]
    (by
      intro r hr
      rw [List.mem_singleton] at hr
      subst hr
      constructor
      · decide
      · constructor
        · decide
        · constructor
          · decide
          · decide)
    ("https://www.facebook.com/posts/55".toList) (by decide)
  exact h

/-- `x` was on screen before round `k`: in the initial seen-set or in an
earlier round's snapshot. -/
def allPrior (env : Nat → RoundObs) (seen0 : List Str) (k : Nat) (x : Str) : Prop :=
  x ∈ seen0 ∨ ∃ r', r' < k ∧ x ∈ (env r').snapshot

/-- The feed stops producing new structural items from round `k` on: no
observer growth, and every snapshotted item was already on screen before
round `k`. -/
def exhaustedAfter (env : Nat → RoundObs) (seen0 : List Str) (k : Nat) : Prop :=
  ∀ r, k ≤ r → (env r).sawNew = false ∧ ∀ x ∈ (env r).snapshot, allPrior env seen0 k x

lemma newDelta_nil (seen : List Str) (snap : List Str)
    (h : ∀ x ∈ snap, x ∈ seen) : newDelta seen snap = [] := by
  unfold newDelta
  rw [List.filter_eq_nil_iff]
  intro x hx
  have hxs : x ∈ snap := List.mem_dedup.mp hx
  have hmem : x ∈ seen := h x hxs
  simp [List.elem_iff, hmem]

lemma crawlLoop_le_fuel (env : Nat → RoundObs) :
    ∀ (f i : Nat) (st : CrawlSt), crawlLoop env f i st ≤ i + f := by
  intro f
  induction f with
  | zero => intro i st; simp [crawlLoop]
  | succ f ih =>
    intro i st
    simp only [crawlLoop]
    split
    · omega
    · have := ih (i + 1) (crawlStep st (env i)).1
      omega

lemma crawlLoop_post (env : Nat → RoundObs) (seen0 : List Str) (k : Nat)
    (hex : exhaustedAfter env seen0 k) :
    ∀ (f i : Nat) (st : CrawlSt), k ≤ i → st.stalls < STALL_LIMIT →
      (∀ x, allPrior env seen0 k x → x ∈ st.seen) →
      crawlLoop env f i st ≤ i + (STALL_LIMIT - st.stalls) := by
  intro f
  induction f with
  | zero =>
    intro i st _ _ _
    simp only [crawlLoop]
    omega
  | succ f ih =>
    intro i st hki hst hseen
    have hL : STALL_LIMIT = 8 := rfl
    have hrow := hex i hki
    have hdelta : newDelta st.seen (env i).snapshot = [] :=
      newDelta_nil _ _ (fun x hx => hseen x (hrow.2 x hx))
    simp only [crawlLoop, crawlStep]
    rw [hdelta]
    by_cases htgt : TARGET_NEW ≠ 0 ∧ st.newly + List.length ([] : List Str) ≥ TARGET_NEW
    · rw [if_pos htgt]
      dsimp only
      rw [if_pos rfl]
      omega
    · rw [if_neg htgt,
        if_pos (show List.length ([] : List Str) = 0 ∧ (env i).sawNew = false from ⟨rfl, hrow.1⟩)]
      by_cases hlim : st.stalls + 1 ≥ STALL_LIMIT
      · rw [decide_eq_true hlim]
        dsimp only
        rw [if_pos rfl]
        omega
      · rw [decide_eq_false hlim]
        dsimp only
        rw [if_neg Bool.false_ne_true]
        have hrec := ih (i + 1)
          ⟨st.seen ++ [], st.newly + List.length ([] : List Str), st.stalls + 1⟩
          (by omega) (show st.stalls + 1 < STALL_LIMIT by omega)
          (fun x hx => List.mem_append.mpr (Or.inl (hseen x hx)))
        dsimp only at hrec
        omega

lemma crawlLoop_pre (env : Nat → RoundObs) (seen0 : List Str) (k : Nat)
    (hex : exhaustedAfter env seen0 k) :
    ∀ (f i : Nat) (st : CrawlSt), i ≤ k → st.stalls < STALL_LIMIT →
      (∀ x ∈ seen0, x ∈ st.seen) →
      (∀ r', r' < i → ∀ x ∈ (env r').snapshot, x ∈ st.seen) →
      crawlLoop env f i st ≤ k + STALL_LIMIT := by
  intro f
  induction f with
  | zero =>
    intro i st hik _ _ _
    simp only [crawlLoop]
    omega
  | succ f ih =>
    intro i st hik hst hs0 hsnap
    have hL : STALL_LIMIT = 8 := rfl
    have hseen' : ∀ x ∈ (env i).snapshot,
        x ∈ st.seen ++ newDelta st.seen (env i).snapshot := by
      intro x hx
      by_cases hm : x ∈ st.seen
      · exact List.mem_append.mpr (Or.inl hm)
      · refine List.mem_append.mpr (Or.inr ?_)
        unfold newDelta
        rw [List.mem_filter]
        exact ⟨List.mem_dedup.mpr hx, by simp [List.elem_iff, hm]⟩
    have hpost : ∀ (st' : CrawlSt), st'.stalls < STALL_LIMIT →
        (1 ≤ st'.stalls ∨ i < k) →
        (∀ x ∈ seen0, x ∈ st'.seen) →
        (∀ r', r' < i + 1 → ∀ x ∈ (env r').snapshot, x ∈ st'.seen) →
        crawlLoop env f (i + 1) st' ≤ k + STALL_LIMIT := by
      intro st' hst' hone hs0' hsnap'
      rcases Nat.lt_or_ge i k with hik' | hik'
      · exact ih (i + 1) st' (by omega) hst' hs0' hsnap'
      · have hik2 : i = k := by omega
        subst hik2
        have hone' : 1 ≤ st'.stalls := by omega
        have h := crawlLoop_post env seen0 i hex f (i + 1) st' (by omega) hst'
          (by
            intro x hx
            rcases hx with hx | ⟨r', hr', hx⟩
            · exact hs0' x hx
            · exact hsnap' r' (by omega) x hx)
        omega
    simp only [crawlLoop, crawlStep]
    by_cases htgt : TARGET_NEW ≠ 0 ∧
        st.newly + (newDelta st.seen (env i).snapshot).length ≥ TARGET_NEW
    · rw [if_pos htgt]
      dsimp only
      rw [if_pos rfl]
      omega
    · rw [if_neg htgt]
      by_cases hng : (newDelta st.seen (env i).snapshot).length = 0 ∧ (env i).sawNew = false
      · rw [if_pos hng]
        by_cases hlim : st.stalls + 1 ≥ STALL_LIMIT
        · rw [decide_eq_true hlim]
          dsimp only
          rw [if_pos rfl]
          omega
        · rw [decide_eq_false hlim]
          dsimp only
          rw [if_neg Bool.false_ne_true]
          exact hpost _ (show st.stalls + 1 < STALL_LIMIT by omega)
            (Or.inl (show 1 ≤ st.stalls + 1 by omega))
            (fun x hx => List.mem_append.mpr (Or.inl (hs0 x hx)))
            (by
              intro r' hr' x hx
              rcases Nat.lt_or_ge r' i with h' | h'
              · exact List.mem_append.mpr (Or.inl (hsnap r' h' x hx))
              · have hri : r' = i := by omega
                subst hri
                exact hseen' x hx)
      · rcases Nat.lt_or_ge i k with hik' | hik'
        · rw [if_neg hng]
          dsimp only
          rw [if_neg Bool.false_ne_true]
          exact hpost _ (show 0 < STALL_LIMIT by omega)
            (Or.inr hik')
            (fun x hx => List.mem_append.mpr (Or.inl (hs0 x hx)))
            (by
              intro r' hr' x hx
              rcases Nat.lt_or_ge r' i with h' | h'
              · exact List.mem_append.mpr (Or.inl (hsnap r' h' x hx))
              · have hri : r' = i := by omega
                subst hri
                exact hseen' x hx)
        · have hik2 : i = k := by omega
          subst hik2
          have hrow := hex i (Nat.le_refl i)
          have hdelta : newDelta st.seen (env i).snapshot = [] :=
            newDelta_nil _ _ (fun x hx => by
              rcases hrow.2 x hx with hx' | ⟨r', hr', hx'⟩
              · exact hs0 x hx'
              · exact hsnap r' hr' x hx')
          exact absurd ⟨by rw [hdelta]; rfl, hrow.1⟩ hng

/-- C7: the collection loop always terminates within the hard round cap
`MAX_SCROLLS`, and when the feed stops producing new structural items after
round `k` it terminates within `k + STALL_LIMIT` rounds. -/
theorem c7_crawler_termination :
    (∀ (env : Nat → RoundObs) (seen0 : List Str),
      executedRounds env seen0 ≤ MAX_SCROLLS) ∧
    (∀ (env : Nat → RoundObs) (seen0 : List Str) (k : Nat),
      exhaustedAfter env seen0 k →
      executedRounds env seen0 ≤ k + STALL_LIMIT) := by
  constructor
  · intro env seen0
    have := crawlLoop_le_fuel env MAX_SCROLLS 0 ⟨seen0, 0, 0⟩
    simpa [executedRounds] using this
  · intro env seen0 k hex
    exact crawlLoop_pre env seen0 k hex MAX_SCROLLS 0 ⟨seen0, 0, 0⟩
      (Nat.zero_le k) (show (0 : Nat) < STALL_LIMIT by decide)
      (fun x hx => hx) (fun r' hr' => absurd hr' (Nat.not_lt_zero r'))

/-- C7 witness: an immediately-exhausted feed terminates within the stall
threshold. -/
theorem c7_witness :
    executedRounds (fun _ => ⟨[], false, false⟩) [] ≤ 0 + STALL_LIMIT :=
  c7_crawler_termination.2 (fun _ => ⟨[], false, false⟩) [] 0
    (by
      intro r _
      exact ⟨rfl, by intro x hx; cases hx⟩)

lemma lookup_mem_snd {ps : List (Char × Char)} {k v : Char} (h : ps.lookup k = some v) :
    v ∈ ps.map Prod.snd := by
  induction ps with
  | nil => cases h
  | cons p t ih =>
    rw [List.lookup_cons] at h
    cases hk : (k == p.1) with
    | true =>
      rw [hk] at h
      dsimp only at h
      cases h
      exact List.mem_map.mpr ⟨p, List.mem_cons_self p t, rfl⟩
    | false =>
      rw [hk] at h
      dsimp only at h
      exact List.mem_cons_of_mem _ (ih h)

lemma fancyMap_idem (c : Char) : fancyMap (fancyMap c) = fancyMap c := by
  unfold fancyMap
  cases h : fancyPairs.lookup c with
  | none => rw [h]
  | some a =>
    have hmem : a ∈ fancyPairs.map Prod.snd := lookup_mem_snd h
    have hnone : ∀ x ∈ fancyPairs.map Prod.snd, fancyPairs.lookup x = none := by decide
    rw [hnone a hmem]

/-- No character of `l` is in the translation table's domain. -/
def NoFancy (l : Str) : Prop := ∀ c ∈ l, fancyMap c = c

/-- No character of `l` is CR, LF or TAB. -/
def CrtFree (l : Str) : Prop := ∀ c ∈ l, isCRT c = false

/-- No two adjacent characters of `l` are both whitespace. -/
def NoWW (l : Str) : Prop :=
  List.Chain' (fun a b => isWs a = false ∨ isWs b = false) l

lemma map_self_of_forall {l : List α} {f : α → α} (h : ∀ c ∈ l, f c = c) : l.map f = l := by
  induction l with
  | nil => rfl
  | cons a t ih =>
    simp [h a (List.mem_cons_self a t), ih (fun c hc => h c (List.mem_cons_of_mem a hc))]

lemma sub1_mem {l : Str} {c : Char} (h : c ∈ sub1 l) : c ∈ l ∨ c = ' ' := by
  induction l with
  | nil => cases h
  | cons a t ih =>
    unfold sub1 at h
    by_cases ha : isCRT a = true
    · rw [if_pos ha] at h
      cases t with
      | nil =>
        dsimp only at h
        rw [List.mem_singleton] at h
        exact Or.inr h
      | cons c2 t2 =>
        dsimp only at h
        by_cases h2 : isCRT c2 = true
        · rw [if_pos h2] at h
          rcases ih h with h' | h'
          · exact Or.inl (List.mem_cons_of_mem a h')
          · exact Or.inr h'
        · rw [if_neg h2] at h
          rcases List.mem_cons.mp h with h' | h'
          · exact Or.inr h'
          · rcases ih h' with h'' | h''
            · exact Or.inl (List.mem_cons_of_mem a h'')
            · exact Or.inr h''
    · rw [if_neg ha] at h
      rcases List.mem_cons.mp h with h' | h'
      · exact Or.inl (h' ▸ List.mem_cons_self a t)
      · rcases ih h' with h'' | h''
        · exact Or.inl (List.mem_cons_of_mem a h'')
        · exact Or.inr h''

lemma sub2go_mem {l : Str} {c : Char} : ∀ {b : Bool}, c ∈ sub2go b l → c ∈ l ∨ c = ' ' := by
  induction l with
  | nil =>
    intro b h
    cases b with
    | true =>
      unfold sub2go at h
      rw [List.mem_singleton] at h
      exact Or.inr h
    | false =>
      unfold sub2go at h
      cases h
  | cons a t ih =>
    intro b h
    cases b with
    | true =>
      unfold sub2go at h
      by_cases ha : isWs a = true
      · rw [if_pos ha] at h
        rcases ih h with h' | h'
        · exact Or.inl (List.mem_cons_of_mem a h')
        · exact Or.inr h'
      · rw [if_neg ha] at h
        rcases List.mem_cons.mp h with h' | h'
        · exact Or.inr h'
        · rcases List.mem_cons.mp h' with h'' | h''
          · exact Or.inl (h'' ▸ List.mem_cons_self a t)
          · rcases ih h'' with h3 | h3
            · exact Or.inl (List.mem_cons_of_mem a h3)
            · exact Or.inr h3
    | false =>
      unfold sub2go at h
      by_cases ha : isWs a = true
      · rw [if_pos ha] at h
        cases t with
        | nil =>
          dsimp only at h
          rw [List.mem_singleton] at h
          exact Or.inl (h ▸ List.mem_cons_self a [])
        | cons c2 t2 =>
          dsimp only at h
          by_cases h2 : isWs c2 = true
          · rw [if_pos h2] at h
            rcases ih h with h' | h'
            · exact Or.inl (List.mem_cons_of_mem a h')
            · exact Or.inr h'
          · rw [if_neg h2] at h
            rcases List.mem_cons.mp h with h' | h'
            · exact Or.inl (h' ▸ List.mem_cons_self a _)
            · rcases ih h' with h'' | h''
              · exact Or.inl (List.mem_cons_of_mem a h'')
              · exact Or.inr h''
      · rw [if_neg ha] at h
        rcases List.mem_cons.mp h with h' | h'
        · exact Or.inl (h' ▸ List.mem_cons_self a t)
        · rcases ih h' with h'' | h''
          · exact Or.inl (List.mem_cons_of_mem a h'')
          · exact Or.inr h''

lemma stripStr_mem {l : Str} {c : Char} (h : c ∈ stripStr l) : c ∈ l := by
  unfold stripStr at h
  rw [List.mem_reverse] at h
  have h1 := (List.dropWhile_suffix isWs).sublist.mem h
  rw [List.mem_reverse] at h1
  exact (List.dropWhile_suffix isWs).sublist.mem h1

lemma noFancy_translate (s : Str) : NoFancy (s.map fancyMap) := by
  intro c hc
  obtain ⟨x, _, rfl⟩ := List.mem_map.mp hc
  exact fancyMap_idem x

lemma fancyMap_space : fancyMap ' ' = ' ' := by decide

lemma isCRT_space : isCRT ' ' = false := by decide

lemma noFancy_sub1 {l : Str} (h : NoFancy l) : NoFancy (sub1 l) :=
  fun c hc => (sub1_mem hc).elim (h c) (fun he => he ▸ fancyMap_space)

lemma noFancy_sub2 {l : Str} (h : NoFancy l) : NoFancy (sub2 l) :=
  fun c hc => (sub2go_mem hc).elim (h c) (fun he => he ▸ fancyMap_space)

lemma noFancy_strip {l : Str} (h : NoFancy l) : NoFancy (stripStr l) :=
  fun c hc => h c (stripStr_mem hc)

lemma crtFree_sub1 (l : Str) : CrtFree (sub1 l) := by
  induction l with
  | nil => intro c hc; cases hc
  | cons a t ih =>
    intro c hc
    unfold sub1 at hc
    by_cases ha : isCRT a = true
    · rw [if_pos ha] at hc
      cases t with
      | nil =>
        dsimp only at hc
        rw [List.mem_singleton] at hc
        rw [hc]
        exact isCRT_space
      | cons c2 t2 =>
        dsimp only at hc
        by_cases h2 : isCRT c2 = true
        · rw [if_pos h2] at hc
          exact ih c hc
        · rw [if_neg h2] at hc
          rcases List.mem_cons.mp hc with h' | h'
          · rw [h']
            exact isCRT_space
          · exact ih c h'
    · rw [if_neg ha] at hc
      rcases List.mem_cons.mp hc with h' | h'
      · subst h'
        cases hval : isCRT c
        · rfl
        · exact absurd hval ha
      · exact ih c h'

lemma crtFree_sub2 {l : Str} (h : CrtFree l) : CrtFree (sub2 l) :=
  fun c hc => (sub2go_mem hc).elim (h c) (fun he => he ▸ isCRT_space)

lemma crtFree_strip {l : Str} (h : CrtFree l) : CrtFree (stripStr l) :=
  fun c hc => h c (stripStr_mem hc)

lemma sub1_id {l : Str} (h : CrtFree l) : sub1 l = l := by
  induction l with
  | nil => rfl
  | cons a t ih =>
    unfold sub1
    rw [if_neg (ne_true_of_eq_false (h a (List.mem_cons_self a t)))]
    rw [ih (fun c hc => h c (List.mem_cons_of_mem a hc))]

lemma sub2go_false_id {l : Str} (h : NoWW l) : sub2go false l = l := by
  induction l with
  | nil => rfl
  | cons a t ih =>
    unfold sub2go
    by_cases ha : isWs a = true
    · rw [if_pos ha]
      cases t with
      | nil => rfl
      | cons c2 t2 =>
        dsimp only
        obtain ⟨hR, ht⟩ := List.chain'_cons.mp h
        have h2 : isWs c2 = false := by
          rcases hR with h' | h'
          · rw [ha] at h'
            cases h'
          · exact h'
        rw [if_neg (ne_true_of_eq_false h2)]
        rw [ih ht]
    · rw [if_neg ha]
      rw [ih h.tail]

lemma sub2go_head_nonws {c : Char} (rest : Str) (h : isWs c = false) :
    sub2go false (c :: rest) = c :: sub2go false rest := by
  conv_lhs => unfold sub2go
  rw [if_neg (ne_true_of_eq_false h)]

lemma eq_false_of_not_eq_true {b : Bool} (h : ¬ b = true) : b = false := by
  cases b
  · rfl
  · exact absurd rfl h

lemma sub2go_chain (l : Str) : ∀ (b : Bool), NoWW (sub2go b l) := by
  induction l with
  | nil =>
    intro b
    cases b with
    | true => exact List.chain'_singleton ' '
    | false => exact List.chain'_nil
  | cons a t ih =>
    intro b
    cases b with
    | true =>
      unfold sub2go
      by_cases ha : isWs a = true
      · rw [if_pos ha]
        exact ih true
      · rw [if_neg ha]
        have ha' : isWs a = false := eq_false_of_not_eq_true ha
        rw [NoWW, List.chain'_cons]
        refine ⟨Or.inr ha', ?_⟩
        rw [List.chain'_cons']
        exact ⟨fun x _ => Or.inl ha', ih false⟩
    | false =>
      unfold sub2go
      by_cases ha : isWs a = true
      · rw [if_pos ha]
        cases t with
        | nil => exact List.chain'_singleton a
        | cons c2 t2 =>
          dsimp only
          by_cases h2 : isWs c2 = true
          · rw [if_pos h2]
            exact ih true
          · rw [if_neg h2]
            have h2' : isWs c2 = false := eq_false_of_not_eq_true h2
            rw [NoWW, List.chain'_cons']
            refine ⟨?_, ih false⟩
            intro x hx
            rw [sub2go_head_nonws t2 h2', List.head?_cons] at hx
            rw [Option.mem_def] at hx
            injection hx with hx'
            rw [← hx']
            exact Or.inr h2'
      · rw [if_neg ha]
        have ha' : isWs a = false := eq_false_of_not_eq_true ha
        rw [NoWW, List.chain'_cons']
        exact ⟨fun x _ => Or.inl ha', ih false⟩

lemma noWW_strip {l : Str} (h : NoWW l) : NoWW (stripStr l) := by
  unfold stripStr
  have h1 : NoWW (l.dropWhile isWs) := h.suffix (List.dropWhile_suffix isWs)
  have h2 : NoWW ((l.dropWhile isWs).reverse) := by
    rw [NoWW, List.chain'_reverse]
    exact h1.imp (fun _ _ hab => hab.symm)
  have h3 : NoWW (((l.dropWhile isWs).reverse).dropWhile isWs) :=
    h2.suffix (List.dropWhile_suffix isWs)
  rw [NoWW, List.chain'_reverse]
  exact h3.imp (fun _ _ hab => hab.symm)

lemma dropWhile_head_false (p : Char → Bool) (l : Str) :
    ∀ c, (l.dropWhile p).head? = some c → p c = false := by
  induction l with
  | nil => intro c h; cases h
  | cons a t ih =>
    intro c h
    rw [List.dropWhile_cons] at h
    by_cases ha : p a = true
    · rw [if_pos ha] at h
      exact ih c h
    · rw [if_neg ha] at h
      rw [List.head?_cons] at h
      injection h with h'
      rw [← h']
      exact eq_false_of_not_eq_true ha

lemma dropWhile_getLast? (p : Char → Bool) (l : Str) (h : l.dropWhile p ≠ []) :
    (l.dropWhile p).getLast? = l.getLast? := by
  induction l with
  | nil => exact absurd rfl h
  | cons a t ih =>
    rw [List.dropWhile_cons] at h ⊢
    by_cases ha : p a = true
    · rw [if_pos ha] at h ⊢
      rw [ih h]
      have ht : t ≠ [] := by
        intro he
        rw [he] at h
        exact h rfl
      cases t with
      | nil => exact absurd rfl ht
      | cons b t2 => rw [List.getLast?_cons_cons]
    · rw [if_neg ha]

lemma stripStr_head_false (l : Str) :
    ∀ c, (stripStr l).head? = some c → isWs c = false := by
  unfold stripStr
  intro c h
  rw [List.head?_reverse] at h
  have hne : ((l.dropWhile isWs).reverse).dropWhile isWs ≠ [] := by
    intro he
    rw [he] at h
    cases h
  rw [dropWhile_getLast? isWs ((l.dropWhile isWs).reverse) hne] at h
  rw [List.getLast?_reverse] at h
  exact dropWhile_head_false isWs l c h

lemma stripStr_last_false (l : Str) :
    ∀ c, (stripStr l).getLast? = some c → isWs c = false := by
  unfold stripStr
  intro c h
  rw [List.getLast?_reverse] at h
  exact dropWhile_head_false isWs (l.dropWhile isWs).reverse c h

lemma stripStr_id_of_ends (l : Str)
    (h1 : ∀ c, l.head? = some c → isWs c = false)
    (h2 : ∀ c, l.getLast? = some c → isWs c = false) : stripStr l = l := by
  unfold stripStr
  have e1 : l.dropWhile isWs = l := by
    cases l with
    | nil => rfl
    | cons a t =>
      rw [List.dropWhile_cons, if_neg (ne_true_of_eq_false (h1 a rfl))]
  rw [e1]
  have e2 : l.reverse.dropWhile isWs = l.reverse := by
    cases hrev : l.reverse with
    | nil => rfl
    | cons a t =>
      have hlast : l.getLast? = some a := by
        have := List.head?_reverse l
        rw [hrev] at this
        exact this.symm
      rw [List.dropWhile_cons, if_neg (ne_true_of_eq_false (h2 a hlast))]
  rw [e2, List.reverse_reverse]

lemma stripStr_idem (l : Str) : stripStr (stripStr l) = stripStr l :=
  stripStr_id_of_ends _ (stripStr_head_false l) (stripStr_last_false l)

lemma sub2_id {l : Str} (h : NoWW l) : sub2 l = l := sub2go_false_id h

lemma oneline_expand {x : Str} (hx : ¬ x.isEmpty = true) :
    oneline x = stripStr (sub2 (sub1 (x.map fancyMap))) := by
  unfold oneline normalize_fancy_letters
  rw [if_neg hx, if_neg hx]

/-- C8: `oneline` — the text normaliser that maps stylised unicode letters
to ASCII, collapses whitespace, and strips the ends — is idempotent (and
total by construction). -/
theorem c8_oneline_idempotent : ∀ s : Str, oneline (oneline s) = oneline s := by
  intro s
  by_cases hs : s.isEmpty = true
  · have h0 : oneline s = [] := by
      unfold oneline
      rw [if_pos hs]
    rw [h0]
    rfl
  · have hexp := oneline_expand hs
    by_cases hre : (oneline s).isEmpty = true
    · have h0 : oneline s = [] := by
        cases hval : oneline s
        · rfl
        · rw [hval] at hre
          cases hre
      rw [h0]
      rfl
    · have hnf : NoFancy (oneline s) := by
        rw [hexp]
        exact noFancy_strip (noFancy_sub2 (noFancy_sub1 (noFancy_translate s)))
      have hcrt : CrtFree (oneline s) := by
        rw [hexp]
        exact crtFree_strip (crtFree_sub2 (crtFree_sub1 _))
      have hww : NoWW (oneline s) := by
        rw [hexp]
        exact noWW_strip (sub2go_chain _ false)
      have hstrip : stripStr (oneline s) = oneline s := by
        rw [hexp]
        exact stripStr_idem _
      rw [oneline_expand hre, map_self_of_forall hnf, sub1_id hcrt, sub2_id hww, hstrip]

lemma insertKV_nil (k v : Str) : insertKV [] k v = [(k, v)] := rfl

lemma insertKV_cons (k0 v0 : Str) (t : List (Str × Str)) (k v : Str) :
    insertKV ((k0, v0) :: t) k v =
      if k0 = k then (k0, v) :: t else (k0, v0) :: insertKV t k v := rfl

lemma lookupKV_nil (k : Str) : lookupKV [] k = none := rfl

lemma lookupKV_cons (k0 v0 : Str) (t : List (Str × Str)) (k : Str) :
    lookupKV ((k0, v0) :: t) k = if k0 = k then some v0 else lookupKV t k := rfl

lemma lookupKV_insertKV (m : List (Str × Str)) (k v k' : Str) :
    lookupKV (insertKV m k v) k' = if k' = k then some v else lookupKV m k' := by
  induction m with
  | nil =>
    rw [insertKV_nil, lookupKV_cons, lookupKV_nil]
    by_cases h : k' = k
    · rw [if_pos h.symm, if_pos h]
    · rw [if_neg (fun he => h he.symm), if_neg h]
  | cons p t ih =>
    obtain ⟨k0, v0⟩ := p
    rw [insertKV_cons]
    by_cases hpk : k0 = k
    · rw [if_pos hpk, lookupKV_cons, lookupKV_cons]
      by_cases hk : k' = k
      · rw [if_pos hk, if_pos (hpk.trans hk.symm)]
      · rw [if_neg hk]
        have hk0 : ¬ k0 = k' := fun he => hk (he.symm.trans hpk)
        rw [if_neg hk0]
        rw [if_neg hk0]
    · rw [if_neg hpk, lookupKV_cons, lookupKV_cons, ih]
      by_cases h0 : k0 = k'
      · rw [if_pos h0, if_neg (fun he => hpk (h0.trans he)), if_pos h0]
      · rw [if_neg h0, if_neg h0]

lemma insertKV_entries {P : Str × Str → Prop} :
    ∀ {m : List (Str × Str)} {k v : Str},
      (∀ p ∈ m, P p) → P (k, v) → ∀ p ∈ insertKV m k v, P p := by
  intro m
  induction m with
  | nil =>
    intro k v _ hkv p hp
    rw [insertKV_nil, List.mem_singleton] at hp
    exact hp ▸ hkv
  | cons q t ih =>
    intro k v hm hkv p hp
    obtain ⟨k0, v0⟩ := q
    rw [insertKV_cons] at hp
    by_cases hpk : k0 = k
    · rw [if_pos hpk] at hp
      rcases List.mem_cons.mp hp with h' | h'
      · subst h'
        exact hpk ▸ hkv
      · exact hm _ (List.mem_cons_of_mem _ h')
    · rw [if_neg hpk] at hp
      rcases List.mem_cons.mp hp with h' | h'
      · exact h' ▸ hm _ (List.mem_cons_self _ t)
      · exact ih (fun q hq => hm q (List.mem_cons_of_mem _ hq)) hkv p h'

lemma foldl_clean_prop (big : List Str) :
    ∀ (fns : List Str), (∀ fn ∈ fns, fn ∈ big) →
      ∀ (init : List (Str × Str)),
        (∀ p ∈ init, p.1 = cleanFieldname p.2 ∧ p.2 ∈ big) →
        ∀ p ∈ List.foldl (fun m fn => insertKV m (cleanFieldname fn) fn) init fns,
          p.1 = cleanFieldname p.2 ∧ p.2 ∈ big := by
  intro fns
  induction fns with
  | nil =>
    intro _ init hinit p hp
    rw [List.foldl_nil] at hp
    exact hinit p hp
  | cons fn t ih =>
    intro hsub init hinit p hp
    rw [List.foldl_cons] at hp
    exact ih (fun x hx => hsub x (List.mem_cons_of_mem fn hx))
      (insertKV init (cleanFieldname fn) fn)
      (insertKV_entries hinit ⟨rfl, hsub fn (List.mem_cons_self fn t)⟩) p hp

lemma cleanedToOrig_prop (fns : List Str) :
    ∀ p ∈ cleanedToOrig fns, p.1 = cleanFieldname p.2 ∧ p.2 ∈ fns :=
  foldl_clean_prop fns fns (fun _ h => h) [] (fun p hp => absurd hp (List.not_mem_nil p))

lemma lookupKV_mem : ∀ {m : List (Str × Str)} {k v : Str},
    lookupKV m k = some v → (k, v) ∈ m := by
  intro m
  induction m with
  | nil => intro k v h; cases h
  | cons p t ih =>
    intro k v h
    obtain ⟨k0, v0⟩ := p
    rw [lookupKV_cons] at h
    by_cases h0 : k0 = k
    · rw [if_pos h0] at h
      cases h
      exact h0 ▸ List.mem_cons_self _ t
    · rw [if_neg h0] at h
      exact List.mem_cons_of_mem _ (ih h)

lemma lookupKV_foldl_isSome :
    ∀ (fns : List Str) (init : List (Str × Str)) (key : Str),
      (lookupKV (List.foldl (fun m fn => insertKV m (cleanFieldname fn) fn) init fns) key).isSome
        = true ↔
      (lookupKV init key).isSome = true ∨ ∃ fn ∈ fns, cleanFieldname fn = key := by
  intro fns
  induction fns with
  | nil =>
    intro init key
    rw [List.foldl_nil]
    simp
  | cons fn t ih =>
    intro init key
    rw [List.foldl_cons, ih, lookupKV_insertKV]
    by_cases hk : key = cleanFieldname fn
    · rw [if_pos hk]
      simp only [Option.isSome_some]
      constructor
      · intro _
        exact Or.inr ⟨fn, List.mem_cons_self fn t, hk.symm⟩
      · intro _
        exact Or.inl trivial
    · rw [if_neg hk]
      constructor
      · rintro (h | ⟨x, hx, he⟩)
        · exact Or.inl h
        · exact Or.inr ⟨x, List.mem_cons_of_mem fn hx, he⟩
      · rintro (h | ⟨x, hx, he⟩)
        · exact Or.inl h
        · rcases List.mem_cons.mp hx with h' | h'
          · subst h'
            exact absurd he.symm hk
          · exact Or.inr ⟨x, h', he⟩

lemma findContainsUrl_some : ∀ {m : List (Str × Str)} {v : Str},
    findContainsUrl m = some v → ∃ k, (k, v) ∈ m ∧ containsSub ("url".toList) k = true := by
  intro m
  induction m with
  | nil => intro v h; cases h
  | cons p t ih =>
    intro v h
    obtain ⟨k0, v0⟩ := p
    unfold findContainsUrl at h
    by_cases h0 : (!k0.isEmpty && containsSub ("url".toList) k0) = true
    · rw [if_pos h0] at h
      cases h
      rw [Bool.and_eq_true] at h0
      exact ⟨k0, List.mem_cons_self _ t, h0.2⟩
    · rw [if_neg h0] at h
      obtain ⟨k, hk, hc⟩ := ih h
      exact ⟨k, List.mem_cons_of_mem _ hk, hc⟩

lemma findContainsUrl_isSome : ∀ {m : List (Str × Str)},
    (∃ p ∈ m, containsSub ("url".toList) p.1 = true ∧ p.1 ≠ []) →
    (findContainsUrl m).isSome = true := by
  intro m
  induction m with
  | nil => rintro ⟨p, hp, -⟩; cases hp
  | cons q t ih =>
    rintro ⟨p, hp, hc, hne⟩
    obtain ⟨k0, v0⟩ := q
    unfold findContainsUrl
    by_cases h0 : (!k0.isEmpty && containsSub ("url".toList) k0) = true
    · rw [if_pos h0]
      rfl
    · rw [if_neg h0]
      rcases List.mem_cons.mp hp with h' | h'
      · rw [h'] at hc hne
        exfalso
        apply h0
        rw [Bool.and_eq_true]
        refine ⟨?_, hc⟩
        cases hk0 : k0 with
        | nil => exact absurd hk0 hne
        | cons a b => rfl
      · exact ih ⟨p, h', hc, hne⟩

lemma findContainsUrl_none : ∀ {m : List (Str × Str)},
    (∀ p ∈ m, containsSub ("url".toList) p.1 = false) →
    findContainsUrl m = none := by
  intro m
  induction m with
  | nil => intro _; rfl
  | cons q t ih =>
    intro h
    obtain ⟨k0, v0⟩ := q
    unfold findContainsUrl
    rw [if_neg (by
      rw [Bool.and_eq_true]
      rintro ⟨-, hc⟩
      have hfalse := h (k0, v0) (List.mem_cons_self _ t)
      rw [hfalse] at hc
      cases hc)]
    exact ih (fun p hp => h p (List.mem_cons_of_mem _ hp))

lemma lookupKV_cleaned_isSome (fns : List Str) (key : Str) :
    (lookupKV (cleanedToOrig fns) key).isSome = true ↔
      ∃ fn ∈ fns, cleanFieldname fn = key := by
  have h := lookupKV_foldl_isSome fns [] key
  rw [lookupKV_nil] at h
  simpa using h

lemma containsSub_ne_nil {k : Str} (h : containsSub ("url".toList) k = true) : k ≠ [] := by
  intro he
  rw [he] at h
  exact absurd h (by decide)

lemma isEmpty_ne_of_mem {hs : List Str} {fn : Str} (h : fn ∈ hs) : ¬ hs.isEmpty = true := by
  cases hs with
  | nil => exact absurd h (List.not_mem_nil fn)
  | cons a t =>
    intro hcon
    rw [List.isEmpty_cons] at hcon
    cases hcon

lemma lookup_cleaned_none_of_no_exact (hs : List Str) (key : Str)
    (h : ¬ ∃ fn ∈ hs, cleanFieldname fn = key) :
    lookupKV (cleanedToOrig hs) key = none := by
  cases hlook : lookupKV (cleanedToOrig hs) key with
  | none => rfl
  | some v =>
    exfalso
    have hmem := lookupKV_mem hlook
    have hprop := cleanedToOrig_prop hs _ hmem
    exact h ⟨v, hprop.2, hprop.1.symm⟩

/-- C9 (amended): the identity column is found by exact cleaned-name match
on "post url" then "url", else the first header whose cleaned name contains
"url"; when no header's cleaned name contains "url" there is no identity
column and `url_in_csv` returns false for every URL — no default column is
used. -/
theorem c9_column_detection :
    (∀ (hs : List Str), (∃ fn ∈ hs, cleanFieldname fn = ("post url".toList)) →
      ∃ fn, findUrlColumn hs = some fn ∧ cleanFieldname fn = ("post url".toList)) ∧
    (∀ (hs : List Str), (¬ ∃ fn ∈ hs, cleanFieldname fn = ("post url".toList)) →
      (∃ fn ∈ hs, cleanFieldname fn = ("url".toList)) →
      ∃ fn, findUrlColumn hs = some fn ∧ cleanFieldname fn = ("url".toList)) ∧
    (∀ (hs : List Str), (¬ ∃ fn ∈ hs, cleanFieldname fn = ("post url".toList)) →
      (¬ ∃ fn ∈ hs, cleanFieldname fn = ("url".toList)) →
      (∃ fn ∈ hs, containsSub ("url".toList) (cleanFieldname fn) = true) →
      ∃ fn, findUrlColumn hs = some fn ∧ containsSub ("url".toList) (cleanFieldname fn) = true) ∧
    (∀ (hs : List Str) (rows : List (List Str)) (u : Str),
      (∀ fn ∈ hs, containsSub ("url".toList) (cleanFieldname fn) = false) →
      findUrlColumn hs = none ∧ urlInCsvFile ⟨hs, rows⟩ u = false) := by
  refine ⟨?_, ?_, ?_, ?_⟩
  · intro hs hex
    obtain ⟨fn0, hfn0, hcl0⟩ := hex
    unfold findUrlColumn
    rw [if_neg (isEmpty_ne_of_mem hfn0)]
    dsimp only
    have hsome := (lookupKV_cleaned_isSome hs ("post url".toList)).mpr ⟨fn0, hfn0, hcl0⟩
    cases hlook : lookupKV (cleanedToOrig hs) ("post url".toList) with
    | none =>
      rw [hlook] at hsome
      cases hsome
    | some v =>
      have hprop := cleanedToOrig_prop hs _ (lookupKV_mem hlook)
      exact ⟨v, rfl, hprop.1.symm⟩
  · intro hs hnpost hex
    obtain ⟨fn0, hfn0, hcl0⟩ := hex
    unfold findUrlColumn
    rw [if_neg (isEmpty_ne_of_mem hfn0)]
    dsimp only
    rw [lookup_cleaned_none_of_no_exact hs _ hnpost]
    have hsome := (lookupKV_cleaned_isSome hs ("url".toList)).mpr ⟨fn0, hfn0, hcl0⟩
    cases hlook : lookupKV (cleanedToOrig hs) ("url".toList) with
    | none =>
      rw [hlook] at hsome
      cases hsome
    | some v =>
      have hprop := cleanedToOrig_prop hs _ (lookupKV_mem hlook)
      exact ⟨v, rfl, hprop.1.symm⟩
  · intro hs hnpost hnurl hex
    obtain ⟨fn0, hfn0, hc0⟩ := hex
    unfold findUrlColumn
    rw [if_neg (isEmpty_ne_of_mem hfn0)]
    dsimp only
    rw [lookup_cleaned_none_of_no_exact hs _ hnpost, lookup_cleaned_none_of_no_exact hs _ hnurl]
    have hsomek := (lookupKV_cleaned_isSome hs (cleanFieldname fn0)).mpr ⟨fn0, hfn0, rfl⟩
    have hpair : ∃ p ∈ cleanedToOrig hs,
        containsSub ("url".toList) p.1 = true ∧ p.1 ≠ [] := by
      cases hlook : lookupKV (cleanedToOrig hs) (cleanFieldname fn0) with
      | none =>
        rw [hlook] at hsomek
        cases hsomek
      | some w =>
        exact ⟨(cleanFieldname fn0, w), lookupKV_mem hlook, hc0, containsSub_ne_nil hc0⟩
    have hsome := findContainsUrl_isSome hpair
    cases hfind : findContainsUrl (cleanedToOrig hs) with
    | none =>
      rw [hfind] at hsome
      cases hsome
    | some v =>
      obtain ⟨k, hkmem, hkc⟩ := findContainsUrl_some hfind
      have hprop := cleanedToOrig_prop hs _ hkmem
      refine ⟨v, rfl, ?_⟩
      rw [← hprop.1]
      exact hkc
  · intro hs rows u h
    have hcol : findUrlColumn hs = none := by
      by_cases hne : hs.isEmpty = true
      · unfold findUrlColumn
        rw [if_pos hne]
      · have h1 : lookupKV (cleanedToOrig hs) ("post url".toList) = none := by
          apply lookup_cleaned_none_of_no_exact
          rintro ⟨fn, hfn, hcl⟩
          have hc := h fn hfn
          rw [hcl] at hc
          exact absurd hc (by decide)
        have h2 : lookupKV (cleanedToOrig hs) ("url".toList) = none := by
          apply lookup_cleaned_none_of_no_exact
          rintro ⟨fn, hfn, hcl⟩
          have hc := h fn hfn
          rw [hcl] at hc
          exact absurd hc (by decide)
        have h3 : findContainsUrl (cleanedToOrig hs) = none := by
          apply findContainsUrl_none
          intro p hp
          have hprop := cleanedToOrig_prop hs p hp
          rw [hprop.1]
          exact h p.2 hprop.2
        unfold findUrlColumn
        rw [if_neg hne]
        dsimp only
        rw [h1, h2]
        exact h3
    refine ⟨hcol, ?_⟩
    unfold urlInCsvFile
    dsimp only
    rw [hcol]

/-- C9 counterexample: a ledger whose headers name no url-like column and
whose first (default) column holds exactly the probed URL — the claim says
`contains` would still find it via a default column, but `_find_url_column`
returns no column and `url_in_csv` returns false. -/
theorem c9_counterexample :
    findUrlColumn [("name".toList), ("text".toList)] = none ∧
    urlInCsvFile
      ⟨[("name".toList), ("text".toList)],
        [[("https://www.facebook.com/posts/9".toList), ("hi".toList)]]⟩
      ("https://www.facebook.com/posts/9".toList) = false := by
  refine ⟨?_, ?_⟩ <;> decide

/-- C9 witness: a "Post URL" header (case/whitespace-varied) is selected by
the exact-match rule. -/
theorem c9_witness :
    ∃ fn, findUrlColumn [("Post URL".toList), ("date".toList)] = some fn ∧
      cleanFieldname fn = ("post url".toList) :=
  c9_column_detection.1 [("Post URL".toList), ("date".toList)]
    ⟨("Post URL".toList), by decide, by decide⟩


-- ==========================================================================
-- C4: URL identity stability across presentation variants
-- ==========================================================================

/-- A character-level prefix match of `pat` against `pat ++ b` always
succeeds and returns `b`. -/
lemma consume_append (p b : Str) : consume p (p ++ b) = some b := by
  induction p with
  | nil => rfl
  | cons c t ih =>
    show consume (c :: t) (c :: (t ++ b)) = some b
    unfold consume
    rw [if_pos rfl]
    exact ih

lemma consume_length : ∀ {p s rest : Str}, consume p s = some rest →
    s.length = p.length + rest.length := by
  intro p
  induction p with
  | nil =>
    intro s rest h
    simp only [consume, Option.some.injEq] at h
    subst h
    simp
  | cons c t ih =>
    intro s rest h
    cases s with
    | nil => simp [consume] at h
    | cons a s2 =>
      unfold consume at h
      by_cases hac : a = c
      · rw [if_pos hac] at h
        have hl := ih h
        simp only [List.length_cons]
        omega
      · rw [if_neg hac] at h
        cases h

lemma replaceAllGo_nil (pat rep : Str) (f : Nat) : replaceAllGo pat rep f [] = [] := by
  cases f <;> rfl

lemma replaceAllGo_cons_none (pat rep : Str) (f : Nat) (c : Char) (t : Str)
    (h : consume pat (c :: t) = none) :
    replaceAllGo pat rep (f + 1) (c :: t) = c :: replaceAllGo pat rep f t := by
  simp only [replaceAllGo]
  rw [h]

lemma replaceAllGo_cons_some (pat rep : Str) (f : Nat) (c : Char) (t rest : Str)
    (h : consume pat (c :: t) = some rest) :
    replaceAllGo pat rep (f + 1) (c :: t) = rep ++ replaceAllGo pat rep f rest := by
  simp only [replaceAllGo]
  rw [h]

lemma replaceAllGo_fuel (p0 : Char) (p rep : Str) :
    ∀ (f1 f2 : Nat) (s : Str), s.length ≤ f1 → s.length ≤ f2 →
      replaceAllGo (p0 :: p) rep f1 s = replaceAllGo (p0 :: p) rep f2 s := by
  intro f1
  induction f1 with
  | zero =>
    intro f2 s h1 _
    cases s with
    | nil => rw [replaceAllGo_nil, replaceAllGo_nil]
    | cons a t => simp at h1
  | succ f1 ih =>
    intro f2 s h1 h2
    cases s with
    | nil => rw [replaceAllGo_nil, replaceAllGo_nil]
    | cons c t =>
      cases f2 with
      | zero => simp at h2
      | succ f2 =>
        cases hcon : consume (p0 :: p) (c :: t) with
        | none =>
          rw [replaceAllGo_cons_none _ _ _ _ _ hcon, replaceAllGo_cons_none _ _ _ _ _ hcon]
          simp only [List.length_cons] at h1 h2
          rw [ih f2 t (by omega) (by omega)]
        | some rest =>
          rw [replaceAllGo_cons_some _ _ _ _ _ _ hcon, replaceAllGo_cons_some _ _ _ _ _ _ hcon]
          have hlen := consume_length hcon
          simp only [List.length_cons] at h1 h2 hlen
          rw [ih f2 rest (by omega) (by omega)]

lemma replaceAll_cons_none (p0 : Char) (p rep : Str) (c : Char) (t : Str)
    (h : consume (p0 :: p) (c :: t) = none) :
    replaceAll (p0 :: p) rep (c :: t) = c :: replaceAll (p0 :: p) rep t := by
  unfold replaceAll
  rw [List.length_cons]
  exact replaceAllGo_cons_none _ _ _ _ _ h

lemma replaceAll_skip (p0 : Char) (p rep : Str) :
    ∀ (a b : Str), p0 ∉ a →
      replaceAll (p0 :: p) rep (a ++ b) = a ++ replaceAll (p0 :: p) rep b := by
  intro a
  induction a with
  | nil => intro b _; rfl
  | cons c a2 ih =>
    intro b hna
    have hc : ¬ (c = p0) := by
      intro he
      subst he
      exact hna (List.mem_cons_self c a2)
    have hcons : consume (p0 :: p) (c :: (a2 ++ b)) = none := by
      unfold consume
      rw [if_neg hc]
    rw [List.cons_append, replaceAll_cons_none _ _ _ _ _ hcons,
        ih b (fun hm => hna (List.mem_cons_of_mem _ hm)), List.cons_append]

lemma replaceAll_id (p0 : Char) (p rep : Str) (b : Str) (h : p0 ∉ b) :
    replaceAll (p0 :: p) rep b = b := by
  have h2 := replaceAll_skip p0 p rep b [] h
  rw [List.append_nil] at h2
  rw [h2, show replaceAll (p0 :: p) rep [] = [] from rfl, List.append_nil]

lemma replaceAll_head_match (p0 : Char) (p rep b : Str) :
    replaceAll (p0 :: p) rep ((p0 :: p) ++ b) = rep ++ replaceAll (p0 :: p) rep b := by
  unfold replaceAll
  rw [List.cons_append, List.length_cons]
  rw [replaceAllGo_cons_some _ _ _ _ _ _
    (by rw [← List.cons_append]; exact consume_append (p0 :: p) b)]
  congr 1
  exact replaceAllGo_fuel p0 p rep (p ++ b).length b.length b
    (by rw [List.length_append]; omega) (Nat.le_refl _)

/-- Tail of `mDotPat` after its leading colon. -/
def mQ : Str := ['/', '/', 'm', '.', 'f', 'a', 'c', 'e', 'b', 'o', 'o', 'k', '.']

/-- Tail of `bareFbPat` after its leading colon. -/
def bareQ : Str := ['/', '/', 'f', 'a', 'c', 'e', 'b', 'o', 'o', 'k', '.']

/-- Tail of `wwwFbRep` after its leading colon. -/
def wwwQ : Str := ['/', '/', 'w', 'w', 'w', '.', 'f', 'a', 'c', 'e', 'b', 'o', 'o', 'k', '.']

lemma consume_m_www (X : Str) : consume mDotPat (wwwFbRep ++ X) = none := rfl

lemma consume_m_bare (X : Str) : consume mDotPat (bareFbPat ++ X) = none := rfl

lemma consume_bare_www (X : Str) : consume bareFbPat (wwwFbRep ++ X) = none := rfl

lemma replaceAll_mPat_skip (a b : Str) (ha : ':' ∉ a) :
    replaceAll mDotPat wwwFbRep (a ++ b) = a ++ replaceAll mDotPat wwwFbRep b :=
  replaceAll_skip ':' mQ wwwFbRep a b ha

lemma replaceAll_barePat_skip (a b : Str) (ha : ':' ∉ a) :
    replaceAll bareFbPat wwwFbRep (a ++ b) = a ++ replaceAll bareFbPat wwwFbRep b :=
  replaceAll_skip ':' bareQ wwwFbRep a b ha

lemma replaceAll_mPat_id (b : Str) (hb : ':' ∉ b) :
    replaceAll mDotPat wwwFbRep b = b :=
  replaceAll_id ':' mQ wwwFbRep b hb

lemma replaceAll_barePat_id (b : Str) (hb : ':' ∉ b) :
    replaceAll bareFbPat wwwFbRep b = b :=
  replaceAll_id ':' bareQ wwwFbRep b hb

lemma replaceAll_mPat_head (b : Str) :
    replaceAll mDotPat wwwFbRep (mDotPat ++ b) =
      wwwFbRep ++ replaceAll mDotPat wwwFbRep b :=
  replaceAll_head_match ':' mQ wwwFbRep b

lemma replaceAll_barePat_head (b : Str) :
    replaceAll bareFbPat wwwFbRep (bareFbPat ++ b) =
      wwwFbRep ++ replaceAll bareFbPat wwwFbRep b :=
  replaceAll_head_match ':' bareQ wwwFbRep b

lemma replaceAll_m_www (X : Str) (hX : ':' ∉ X) :
    replaceAll mDotPat wwwFbRep (wwwFbRep ++ X) = wwwFbRep ++ X := by
  have hw : ':' ∉ wwwQ ++ X := fun hm =>
    (List.mem_append.mp hm).elim (fun h => absurd h (by decide)) hX
  rw [show wwwFbRep ++ X = ':' :: (wwwQ ++ X) from rfl]
  rw [show replaceAll mDotPat wwwFbRep (':' :: (wwwQ ++ X)) =
        ':' :: replaceAll mDotPat wwwFbRep (wwwQ ++ X) from
    replaceAll_cons_none ':' mQ wwwFbRep ':' (wwwQ ++ X) (consume_m_www X)]
  rw [replaceAll_mPat_id _ hw]

lemma replaceAll_bare_www (X : Str) (hX : ':' ∉ X) :
    replaceAll bareFbPat wwwFbRep (wwwFbRep ++ X) = wwwFbRep ++ X := by
  have hw : ':' ∉ wwwQ ++ X := fun hm =>
    (List.mem_append.mp hm).elim (fun h => absurd h (by decide)) hX
  rw [show wwwFbRep ++ X = ':' :: (wwwQ ++ X) from rfl]
  rw [show replaceAll bareFbPat wwwFbRep (':' :: (wwwQ ++ X)) =
        ':' :: replaceAll bareFbPat wwwFbRep (wwwQ ++ X) from
    replaceAll_cons_none ':' bareQ wwwFbRep ':' (wwwQ ++ X) (consume_bare_www X)]
  rw [replaceAll_barePat_id _ hw]

lemma replaceAll_m_bare (X : Str) (hX : ':' ∉ X) :
    replaceAll mDotPat wwwFbRep (bareFbPat ++ X) = bareFbPat ++ X := by
  have hw : ':' ∉ bareQ ++ X := fun hm =>
    (List.mem_append.mp hm).elim (fun h => absurd h (by decide)) hX
  rw [show bareFbPat ++ X = ':' :: (bareQ ++ X) from rfl]
  rw [show replaceAll mDotPat wwwFbRep (':' :: (bareQ ++ X)) =
        ':' :: replaceAll mDotPat wwwFbRep (bareQ ++ X) from
    replaceAll_cons_none ':' mQ wwwFbRep ':' (bareQ ++ X) (consume_m_bare X)]
  rw [replaceAll_mPat_id _ hw]

/-- The `m.facebook.com` host alias. -/
def hostM : Str := ['m', '.', 'f', 'a', 'c', 'e', 'b', 'o', 'o', 'k', '.', 'c', 'o', 'm']

/-- The bare `facebook.com` host alias. -/
def hostBare : Str := ['f', 'a', 'c', 'e', 'b', 'o', 'o', 'k', '.', 'c', 'o', 'm']

/-- The canonical `www.facebook.com` host. -/
def hostW : Str := ['w', 'w', 'w', '.', 'f', 'a', 'c', 'e', 'b', 'o', 'o', 'k', '.', 'c', 'o', 'm']

/-- `"com"`, the host suffix shared by the three aliases. -/
def comStr : Str := ['c', 'o', 'm']

lemma hostRewrite_canon (pre host tail : Str)
    (hpre : ':' ∉ pre) (htail : ':' ∉ tail)
    (hh : host = hostM ∨ host = hostBare ∨ host = hostW) :
    hostRewrite (pre ++ ([':', '/', '/'] ++ (host ++ tail))) =
      pre ++ (wwwFbRep ++ (comStr ++ tail)) := by
  have hc : ':' ∉ comStr ++ tail := fun hm =>
    (List.mem_append.mp hm).elim (fun h => absurd h (by decide)) htail
  unfold hostRewrite
  rcases hh with rfl | rfl | rfl
  · rw [show [':', '/', '/'] ++ (hostM ++ tail) = mDotPat ++ (comStr ++ tail) from rfl,
        replaceAll_mPat_skip pre _ hpre, replaceAll_mPat_head, replaceAll_mPat_id _ hc,
        replaceAll_barePat_skip pre _ hpre, replaceAll_bare_www _ hc]
  · rw [show [':', '/', '/'] ++ (hostBare ++ tail) = bareFbPat ++ (comStr ++ tail) from rfl,
        replaceAll_mPat_skip pre _ hpre, replaceAll_m_bare _ hc,
        replaceAll_barePat_skip pre _ hpre, replaceAll_barePat_head, replaceAll_barePat_id _ hc]
  · rw [show [':', '/', '/'] ++ (hostW ++ tail) = wwwFbRep ++ (comStr ++ tail) from rfl,
        replaceAll_mPat_skip pre _ hpre, replaceAll_m_www _ hc,
        replaceAll_barePat_skip pre _ hpre, replaceAll_bare_www _ hc]

lemma httpToHttps_http (Y : Str) :
    httpToHttps (("http".toList) ++ ([':', '/', '/'] ++ Y)) =
      ("https".toList) ++ ([':', '/', '/'] ++ Y) := by
  rw [show ("http".toList) ++ ([':', '/', '/'] ++ Y) = httpPrefix ++ Y from rfl]
  unfold httpToHttps
  rw [List.take_left' (show httpPrefix.length = 7 from rfl)]
  rw [if_pos (show toLowerStr httpPrefix = httpPrefix from by decide)]
  rw [List.drop_left' (show httpPrefix.length = 7 from rfl)]
  rfl

lemma httpToHttps_https (Y : Str) :
    httpToHttps (("https".toList) ++ ([':', '/', '/'] ++ Y)) =
      ("https".toList) ++ ([':', '/', '/'] ++ Y) := by
  rw [show ("https".toList) ++ ([':', '/', '/'] ++ Y) = httpsPrefix ++ Y from rfl]
  unfold httpToHttps
  rw [List.take_append_of_le_length (show 7 ≤ httpsPrefix.length from by decide)]
  rw [if_neg (show ¬ (toLowerStr (httpsPrefix.take 7) = httpPrefix) from by decide)]

lemma takeWhile_append_all (P : Char → Bool) :
    ∀ (a b : Str), (∀ c ∈ a, P c = true) →
      (a ++ b).takeWhile P = a ++ b.takeWhile P := by
  intro a
  induction a with
  | nil => intro b _; rfl
  | cons c a2 ih =>
    intro b ha
    have hc := ha c (List.mem_cons_self c a2)
    rw [List.cons_append, List.takeWhile_cons_of_pos hc,
        ih b (fun x hx => ha x (List.mem_cons_of_mem _ hx)), List.cons_append]

lemma takeWhile_q_hash_nil (x : Str)
    (hx : x = [] ∨ x.head? = some '?' ∨ x.head? = some '#') :
    List.takeWhile (fun c => c ≠ '?') (List.takeWhile (fun c => c ≠ '#') x) = [] := by
  rcases hx with rfl | hq | hf
  · rfl
  · cases x with
    | nil => simp at hq
    | cons c t =>
      have hc : c = '?' := Option.some.inj hq
      subst hc
      rw [List.takeWhile_cons_of_pos (by decide), List.takeWhile_cons_of_neg (by decide)]
  · cases x with
    | nil => simp at hf
    | cons c t =>
      have hc : c = '#' := Option.some.inj hf
      subst hc
      rw [List.takeWhile_cons_of_neg (by decide)]
      rfl

lemma stripQueryFrag_chain (C p : Str) (k : Nat) (x : Str)
    (hC : ∀ c ∈ C, c ≠ '#' ∧ c ≠ '?')
    (hp : ∀ c ∈ p, c ≠ '#' ∧ c ≠ '?')
    (hx : x = [] ∨ x.head? = some '?' ∨ x.head? = some '#') :
    stripQueryFrag (C ++ (p ++ (List.replicate k '/' ++ x))) =
      C ++ (p ++ List.replicate k '/') := by
  unfold stripQueryFrag
  rw [takeWhile_append_all _ C _ (fun c hc => decide_eq_true (hC c hc).1),
      takeWhile_append_all _ p _ (fun c hc => decide_eq_true (hp c hc).1),
      takeWhile_append_all _ (List.replicate k '/') _
        (fun c hc => decide_eq_true (by rw [List.eq_of_mem_replicate hc]; decide)),
      takeWhile_append_all _ C _ (fun c hc => decide_eq_true (hC c hc).2),
      takeWhile_append_all _ p _ (fun c hc => decide_eq_true (hp c hc).2),
      takeWhile_append_all _ (List.replicate k '/') _
        (fun c hc => decide_eq_true (by rw [List.eq_of_mem_replicate hc]; decide)),
      takeWhile_q_hash_nil x hx, List.append_nil]

lemma subQFGo_append : ∀ (a x : Str), (∀ c ∈ a, c ≠ '?' ∧ c ≠ '#') →
    subQFGo (a ++ x) = a ++ subQFGo x := by
  intro a
  induction a with
  | nil => intro x _; rfl
  | cons c a2 ih =>
    intro x ha
    have hc := ha c (List.mem_cons_self c a2)
    rw [List.cons_append]
    conv_lhs => unfold subQFGo
    rw [if_neg (fun h => h.elim hc.1 hc.2)]
    rw [ih x (fun d hd => ha d (List.mem_cons_of_mem _ hd)), List.cons_append]

lemma subQFGo_suffix_nil (x : Str)
    (hx : x = [] ∨ x.head? = some '?' ∨ x.head? = some '#')
    (hn : '\n' ∉ x) :
    subQFGo x = [] := by
  rcases hx with rfl | hq | hf
  · rfl
  · cases x with
    | nil => simp at hq
    | cons c t =>
      have hc : c = '?' := Option.some.inj hq
      subst hc
      have hcon : (('?' :: t).contains '\n') = false := by
        by_contra hcc
        rw [Bool.not_eq_false] at hcc
        exact hn (List.mem_of_elem_eq_true hcc)
      conv_lhs => unfold subQFGo
      rw [if_pos (Or.inl rfl), if_pos hcon]
  · cases x with
    | nil => simp at hf
    | cons c t =>
      have hc : c = '#' := Option.some.inj hf
      subst hc
      have hcon : (('#' :: t).contains '\n') = false := by
        by_contra hcc
        rw [Bool.not_eq_false] at hcc
        exact hn (List.mem_of_elem_eq_true hcc)
      conv_lhs => unfold subQFGo
      rw [if_pos (Or.inr rfl), if_pos hcon]

lemma subQF_chain (C p : Str) (k : Nat) (x : Str)
    (hC : ∀ c ∈ C, c ≠ '?' ∧ c ≠ '#')
    (hp : ∀ c ∈ p, c ≠ '?' ∧ c ≠ '#')
    (hx : x = [] ∨ x.head? = some '?' ∨ x.head? = some '#')
    (hn : '\n' ∉ x) :
    subQF (C ++ (p ++ (List.replicate k '/' ++ x))) =
      C ++ (p ++ List.replicate k '/') := by
  unfold subQF
  rw [subQFGo_append C _ hC, subQFGo_append p _ hp,
      subQFGo_append (List.replicate k '/') _
        (fun c hc => by rw [List.eq_of_mem_replicate hc]; exact ⟨by decide, by decide⟩),
      subQFGo_suffix_nil x hx hn, List.append_nil]

lemma dropWhile_slash_replicate (k : Nat) (r : Str) :
    List.dropWhile (fun c => c = '/') (List.replicate k '/' ++ r) =
      List.dropWhile (fun c => c = '/') r := by
  induction k with
  | zero => rfl
  | succ k ih =>
    rw [List.replicate_succ, List.cons_append, List.dropWhile_cons_of_pos (by decide), ih]

lemma rstripSlash_append_slashes (b : Str) (k : Nat) (hb : b.getLast? ≠ some '/') :
    rstripSlash (b ++ List.replicate k '/') = b := by
  unfold rstripSlash
  rw [List.reverse_append, List.reverse_replicate, dropWhile_slash_replicate]
  cases hrev : b.reverse with
  | nil =>
    have hb0 : b = [] := by
      have h2 := congrArg List.reverse hrev
      rwa [List.reverse_reverse, List.reverse_nil] at h2
    simp only [List.dropWhile_nil, List.reverse_nil]
    exact hb0.symm
  | cons c t =>
    have hc : ¬ ((fun c => decide (c = '/')) c = true) := by
      intro hcon
      apply hb
      rw [show b.getLast? = some c from by rw [← List.head?_reverse, hrev]; rfl]
      rw [of_decide_eq_true hcon]
    rw [List.dropWhile_cons, if_neg hc, ← hrev, List.reverse_reverse]

lemma rstripSlash_chain (C p : Str) (k : Nat) (hend : (C ++ p).getLast? ≠ some '/') :
    rstripSlash (C ++ (p ++ List.replicate k '/')) = C ++ p := by
  rw [← List.append_assoc]
  exact rstripSlash_append_slashes (C ++ p) k hend

lemma getLast_append_ne_slash (C p : Str) (hC : C.getLast? ≠ some '/')
    (hp : p.getLast? ≠ some '/') : (C ++ p).getLast? ≠ some '/' := by
  cases p with
  | nil => rw [List.append_nil]; exact hC
  | cons a t =>
    rw [List.getLast?_append_of_ne_nil _ (by simp)]
    exact hp

lemma stripStr_id_of_no_ws (l : Str) (h : ∀ c ∈ l, isWs c = false) : stripStr l = l :=
  stripStr_id_of_ends l
    (fun c hc => h c (List.mem_of_mem_head? hc))
    (fun c hc => h c (List.mem_of_mem_getLast? hc))

/-- A post URL assembled from its identity-irrelevant presentation parts:
scheme, host alias, path, trailing slashes, query/fragment suffix. -/
def mkUrl (scheme host path : Str) (k : Nat) (sfx : Str) : Str :=
  scheme ++ ([':', '/', '/'] ++ (host ++ (path ++ (List.replicate k '/' ++ sfx))))

/-- Well-formedness of the parts of `mkUrl`: a real http(s) scheme, one of
the three Facebook host aliases, a whitespace-free path that carries no
`:`/`?`/`#` and no trailing slash of its own, and a suffix that is empty or
a query/fragment. -/
abbrev VariantOK (scheme host path : Str) (_k : Nat) (sfx : Str) : Prop :=
  (scheme = ("http".toList) ∨ scheme = ("https".toList)) ∧
  (host = hostM ∨ host = hostBare ∨ host = hostW) ∧
  (∀ c ∈ path, isWs c = false ∧ c ≠ ':' ∧ c ≠ '?' ∧ c ≠ '#') ∧
  path.getLast? ≠ some '/' ∧
  (sfx = [] ∨ sfx.head? = some '?' ∨ sfx.head? = some '#') ∧
  (∀ c ∈ sfx, isWs c = false ∧ c ≠ ':')

lemma mkUrl_no_ws (scheme host path : Str) (k : Nat) (sfx : Str)
    (hv : VariantOK scheme host path k sfx) :
    ∀ c ∈ mkUrl scheme host path k sfx, isWs c = false := by
  obtain ⟨hs, hh, hp, -, -, hx⟩ := hv
  intro c hc
  unfold mkUrl at hc
  simp only [List.mem_append] at hc
  rcases hc with hc | hc | hc | hc | hc | hc
  · rcases hs with rfl | rfl
    · exact (by decide : ∀ x ∈ ("http".toList), isWs x = false) c hc
    · exact (by decide : ∀ x ∈ ("https".toList), isWs x = false) c hc
  · exact (by decide : ∀ x ∈ [':', '/', '/'], isWs x = false) c hc
  · rcases hh with rfl | rfl | rfl
    · exact (by decide : ∀ x ∈ hostM, isWs x = false) c hc
    · exact (by decide : ∀ x ∈ hostBare, isWs x = false) c hc
    · exact (by decide : ∀ x ∈ hostW, isWs x = false) c hc
  · exact (hp c hc).1
  · rw [List.eq_of_mem_replicate hc]; decide
  · exact (hx c hc).1

lemma canonicalize_url_expand (u : Str) (hne : u.isEmpty = false) :
    canonicalize_url u =
      rstripSlash (stripQueryFrag (hostRewrite (httpToHttps
        (if (stripStr u).head? = some '/' then fbWwwHost ++ stripStr u
         else stripStr u)))) := by
  unfold canonicalize_url
  rw [if_neg (ne_true_of_eq_false hne)]

lemma normalize_fp_expand (u : Str) (hne : u.isEmpty = false) :
    normalize_fp u = rstripSlash (subQF (hostRewrite (stripStr u))) := by
  unfold normalize_fp
  rw [if_neg (ne_true_of_eq_false hne)]

lemma canon_after_scheme (host path : Str) (k : Nat) (sfx : Str)
    (hh : host = hostM ∨ host = hostBare ∨ host = hostW)
    (hp : ∀ c ∈ path, isWs c = false ∧ c ≠ ':' ∧ c ≠ '?' ∧ c ≠ '#')
    (hpend : path.getLast? ≠ some '/')
    (hxs : sfx = [] ∨ sfx.head? = some '?' ∨ sfx.head? = some '#')
    (hxc : ∀ c ∈ sfx, isWs c = false ∧ c ≠ ':') :
    rstripSlash (stripQueryFrag (hostRewrite (("https".toList) ++
        ([':', '/', '/'] ++ (host ++ (path ++ (List.replicate k '/' ++ sfx))))))) =
      fbWwwHost ++ path := by
  have hcolon : ':' ∉ path ++ (List.replicate k '/' ++ sfx) := by
    intro hm
    rcases List.mem_append.mp hm with h | h
    · exact (hp ':' h).2.1 rfl
    · rcases List.mem_append.mp h with h | h
      · exact absurd (List.eq_of_mem_replicate h) (by decide)
      · exact (hxc ':' h).2 rfl
  rw [hostRewrite_canon ("https".toList) host _ (by decide) hcolon hh]
  rw [show ("https".toList) ++ (wwwFbRep ++ (comStr ++ (path ++ (List.replicate k '/' ++ sfx)))) =
        fbWwwHost ++ (path ++ (List.replicate k '/' ++ sfx)) from rfl]
  rw [stripQueryFrag_chain fbWwwHost path k sfx (by decide)
        (fun c hc => ⟨(hp c hc).2.2.2, (hp c hc).2.2.1⟩) hxs]
  exact rstripSlash_chain fbWwwHost path k
    (getLast_append_ne_slash fbWwwHost path (by decide) hpend)

lemma canonicalize_mkUrl (scheme host path : Str) (k : Nat) (sfx : Str)
    (hv : VariantOK scheme host path k sfx) :
    canonicalize_url (mkUrl scheme host path k sfx) = fbWwwHost ++ path := by
  have hws := mkUrl_no_ws scheme host path k sfx hv
  obtain ⟨hs, hh, hp, hpend, hxs, hxc⟩ := hv
  rcases hs with rfl | rfl
  · rw [canonicalize_url_expand _
      (show (mkUrl ("http".toList) host path k sfx).isEmpty = false from rfl)]
    rw [stripStr_id_of_no_ws _ hws]
    rw [if_neg (show ¬ ((mkUrl ("http".toList) host path k sfx).head? = some '/') from by
      rw [show (mkUrl ("http".toList) host path k sfx).head? = some 'h' from rfl]; decide)]
    rw [show mkUrl ("http".toList) host path k sfx =
          ("http".toList) ++ ([':', '/', '/'] ++ (host ++ (path ++ (List.replicate k '/' ++ sfx))))
        from rfl]
    rw [httpToHttps_http]
    exact canon_after_scheme host path k sfx hh hp hpend hxs hxc
  · rw [canonicalize_url_expand _
      (show (mkUrl ("https".toList) host path k sfx).isEmpty = false from rfl)]
    rw [stripStr_id_of_no_ws _ hws]
    rw [if_neg (show ¬ ((mkUrl ("https".toList) host path k sfx).head? = some '/') from by
      rw [show (mkUrl ("https".toList) host path k sfx).head? = some 'h' from rfl]; decide)]
    rw [show mkUrl ("https".toList) host path k sfx =
          ("https".toList) ++ ([':', '/', '/'] ++ (host ++ (path ++ (List.replicate k '/' ++ sfx))))
        from rfl]
    rw [httpToHttps_https]
    exact canon_after_scheme host path k sfx hh hp hpend hxs hxc

lemma norm_after_scheme (scheme host path : Str) (k : Nat) (sfx : Str)
    (hpre : ':' ∉ scheme)
    (hh : host = hostM ∨ host = hostBare ∨ host = hostW)
    (hp : ∀ c ∈ path, isWs c = false ∧ c ≠ ':' ∧ c ≠ '?' ∧ c ≠ '#')
    (hpend : path.getLast? ≠ some '/')
    (hxs : sfx = [] ∨ sfx.head? = some '?' ∨ sfx.head? = some '#')
    (hxc : ∀ c ∈ sfx, isWs c = false ∧ c ≠ ':')
    (hsq : ∀ c ∈ scheme, c ≠ '?' ∧ c ≠ '#')
    (hsend : scheme.getLast? ≠ some '/') :
    rstripSlash (subQF (hostRewrite (scheme ++
        ([':', '/', '/'] ++ (host ++ (path ++ (List.replicate k '/' ++ sfx))))))) =
      (scheme ++ (wwwFbRep ++ comStr)) ++ path := by
  have hcolon : ':' ∉ path ++ (List.replicate k '/' ++ sfx) := by
    intro hm
    rcases List.mem_append.mp hm with h | h
    · exact (hp ':' h).2.1 rfl
    · rcases List.mem_append.mp h with h | h
      · exact absurd (List.eq_of_mem_replicate h) (by decide)
      · exact (hxc ':' h).2 rfl
  have hnl : '\n' ∉ sfx := fun hm => absurd (hxc '\n' hm).1 (by decide)
  rw [hostRewrite_canon scheme host _ hpre hcolon hh]
  rw [show scheme ++ (wwwFbRep ++ (comStr ++ (path ++ (List.replicate k '/' ++ sfx)))) =
        (scheme ++ (wwwFbRep ++ comStr)) ++ (path ++ (List.replicate k '/' ++ sfx)) from by
    simp [List.append_assoc]]
  have hCq : ∀ c ∈ scheme ++ (wwwFbRep ++ comStr), c ≠ '?' ∧ c ≠ '#' := by
    intro c hc
    rcases List.mem_append.mp hc with h | h
    · exact hsq c h
    · rcases List.mem_append.mp h with h | h
      · exact ⟨by rintro rfl; exact absurd h (by decide), by rintro rfl; exact absurd h (by decide)⟩
      · exact ⟨by rintro rfl; exact absurd h (by decide), by rintro rfl; exact absurd h (by decide)⟩
  rw [subQF_chain (scheme ++ (wwwFbRep ++ comStr)) path k sfx hCq
        (fun c hc => ⟨(hp c hc).2.2.1, (hp c hc).2.2.2⟩) hxs hnl]
  exact rstripSlash_chain (scheme ++ (wwwFbRep ++ comStr)) path k
    (getLast_append_ne_slash _ path
      (getLast_append_ne_slash scheme (wwwFbRep ++ comStr) hsend (by decide)) hpend)

lemma normalize_mkUrl (scheme host path : Str) (k : Nat) (sfx : Str)
    (hv : VariantOK scheme host path k sfx) :
    normalize_fp (mkUrl scheme host path k sfx) =
      (scheme ++ (wwwFbRep ++ comStr)) ++ path := by
  have hws := mkUrl_no_ws scheme host path k sfx hv
  obtain ⟨hs, hh, hp, hpend, hxs, hxc⟩ := hv
  rcases hs with rfl | rfl
  · rw [normalize_fp_expand _
      (show (mkUrl ("http".toList) host path k sfx).isEmpty = false from rfl)]
    rw [stripStr_id_of_no_ws _ hws]
    rw [show mkUrl ("http".toList) host path k sfx =
          ("http".toList) ++ ([':', '/', '/'] ++ (host ++ (path ++ (List.replicate k '/' ++ sfx))))
        from rfl]
    exact norm_after_scheme _ host path k sfx (by decide) hh hp hpend hxs hxc
      (by decide) (by decide)
  · rw [normalize_fp_expand _
      (show (mkUrl ("https".toList) host path k sfx).isEmpty = false from rfl)]
    rw [stripStr_id_of_no_ws _ hws]
    rw [show mkUrl ("https".toList) host path k sfx =
          ("https".toList) ++ ([':', '/', '/'] ++ (host ++ (path ++ (List.replicate k '/' ++ sfx))))
        from rfl]
    exact norm_after_scheme _ host path k sfx (by decide) hh hp hpend hxs hxc
      (by decide) (by decide)

/-- C4 (amended): canonical-URL equality is a stable identity for the
crawler — for any two well-formed variants of the same post path that
differ in scheme (`http`/`https`), host alias (`m.facebook.com`,
`facebook.com`, `www.facebook.com`), trailing slashes, and query/fragment
suffix, `canonicalize_url` yields the same string.  The ledger and
skip-detection key (`filterPosts.normalize_url`, here `normalize_fp`) is
stable only across host-alias/query/fragment/trailing-slash variants of
the SAME scheme: it never rewrites `http://` to `https://`, so scheme
variants are distinct identities to ledger membership and skip detection
even though they are one identity to the crawler. -/
theorem c4_identity_stability :
    (∀ s1 h1 p k1 x1 s2 h2 k2 x2,
        VariantOK s1 h1 p k1 x1 → VariantOK s2 h2 p k2 x2 →
        canonicalize_url (mkUrl s1 h1 p k1 x1) = canonicalize_url (mkUrl s2 h2 p k2 x2)) ∧
    (∀ s h1 p k1 x1 h2 k2 x2,
        VariantOK s h1 p k1 x1 → VariantOK s h2 p k2 x2 →
        normalize_fp (mkUrl s h1 p k1 x1) = normalize_fp (mkUrl s h2 p k2 x2)) := by
  constructor
  · intro s1 h1 p k1 x1 s2 h2 k2 x2 hv1 hv2
    rw [canonicalize_mkUrl s1 h1 p k1 x1 hv1, canonicalize_mkUrl s2 h2 p k2 x2 hv2]
  · intro s h1 p k1 x1 h2 k2 x2 hv1 hv2
    rw [normalize_mkUrl s h1 p k1 x1 hv1, normalize_mkUrl s h2 p k2 x2 hv2]

/-- C4 witness: `http://m.facebook.com/posts/7/?ref=share` and
`https://www.facebook.com/posts/7` canonicalize to the same string. -/
theorem c4_witness :
    VariantOK ("http".toList) hostM ("/posts/7".toList) 1 ("?ref=share".toList) ∧
    VariantOK ("https".toList) hostW ("/posts/7".toList) 0 [] ∧
    canonicalize_url (mkUrl ("http".toList) hostM ("/posts/7".toList) 1 ("?ref=share".toList)) =
      canonicalize_url (mkUrl ("https".toList) hostW ("/posts/7".toList) 0 []) :=
  ⟨by decide, by decide,
    c4_identity_stability.1 ("http".toList) hostM ("/posts/7".toList) 1 ("?ref=share".toList)
      ("https".toList) hostW 0 [] (by decide) (by decide)⟩

/-- C4 counterexample: the spec claims canonical-URL equality is the sole
identity key across crawling, ledgering and skip detection, but the two
scheme variants of one post are one identity to the crawler
(`canonicalize_url` agrees) and two identities to the ledger/skip key
(`normalize_url` of filterPosts differs, since it lacks the
`http://`→`https://` rewrite). -/
theorem c4_counterexample :
    canonicalize_url ("http://www.facebook.com/posts/1".toList) =
      canonicalize_url ("https://www.facebook.com/posts/1".toList) ∧
    normalize_fp ("http://www.facebook.com/posts/1".toList) ≠
      normalize_fp ("https://www.facebook.com/posts/1".toList) := by
  exact ⟨by decide, by decide⟩
